import Mathlib

/-!
Verification model of `react-router-typed-object`.

The authoritative implementation is the flattened route engine of
`inferRouteObject.ts` (the revision that also ships the `useParams` hook,
the one exercised by the test-suite).  JavaScript strings are modelled as
`List Char`, JavaScript plain objects with string keys as association
lists with first-match lookup and update-in-place assignment, and thrown
`Error` values as an inductive mirroring exactly the data interpolated
into each error message.  JS `String.prototype.replace` with a string
pattern is modelled including its `$`-escape processing of the
replacement; `decodeURIComponent`, `encodeURIComponent` and
`URLSearchParams` (parsing and serialising) are modelled down to UTF-8
byte level.  Integer-keyed property reordering of JS objects is not
modelled: every key in scope here is a parameter name, never an array
index.
-/

namespace RRTO

/-- A JavaScript string, as its list of characters. -/
abbrev JStr := List Char

/-- Embed a Lean string literal as a modelled JS string. -/
def js (s : String) : JStr := s.data

/-- The test `leadsWith p s` is JS `s.startsWith(p)`. -/
def leadsWith : JStr → JStr → Bool
  | [], _ => true
  | _ :: _, [] => false
  | p :: ps, c :: cs => p == c && leadsWith ps cs

/-- JS `s.endsWith("?")`. -/
def endsWithQ (s : JStr) : Bool := s.getLast? == some '?'

/-- JS `s.split(sep)` for a single-character separator. -/
def splitOnChar (sep : Char) : JStr → List JStr
  | [] => [[]]
  | c :: rest =>
    if c = sep then [] :: splitOnChar sep rest
    else
      match splitOnChar sep rest with
      | [] => [[c]]
      | s :: ss => (c :: s) :: ss

/-- First occurrence of `pat` in `s`: the text before it and the text
after it, or `none` when `pat` does not occur (JS `indexOf` search). -/
def splitFirst (pat : JStr) : JStr → Option (JStr × JStr)
  | [] => if leadsWith pat [] then some ([], []) else none
  | c :: rest =>
    if leadsWith pat (c :: rest) then some ([], List.drop pat.length (c :: rest))
    else (splitFirst pat rest).map (fun p => (c :: p.1, p.2))

/-- ECMAScript `GetSubstitution` for a string pattern (no capture
groups): `$$`, `$&`, a dollar followed by a backquote, and a dollar
followed by an apostrophe are interpreted; any other `$` is literal. -/
def getSubstitution (m b a : JStr) : JStr → JStr
  | [] => []
  | c :: rest =>
    if c = '$' then
      match rest with
      | [] => ['$']
      | d :: rest2 =>
        if d = '$' then '$' :: getSubstitution m b a rest2
        else if d = '&' then m ++ getSubstitution m b a rest2
        else if d = Char.ofNat 96 then b ++ getSubstitution m b a rest2
        else if d = Char.ofNat 39 then a ++ getSubstitution m b a rest2
        else c :: d :: getSubstitution m b a rest2
    else c :: getSubstitution m b a rest

/-- JS `s.replace(pat, repl)` with a string `pat`: replaces the first
occurrence only, processing `$`-escapes in `repl`. -/
def replaceFirst (s pat repl : JStr) : JStr :=
  match splitFirst pat s with
  | none => s
  | some p => p.1 ++ getSubstitution pat p.1 p.2 repl ++ p.2

/-- A JS object with string-valued properties, in enumeration order. -/
abbrev Rec := List (JStr × JStr)

/-- A JS object whose property values may be `undefined` (`none`). -/
abbrev RecU := List (JStr × Option JStr)

/-- Property read `r[k]`, `none` when the key is absent. -/
def objGet : Rec → JStr → Option JStr
  | [], _ => none
  | kv :: rest, k => if kv.1 == k then some kv.2 else objGet rest k

/-- JS `k in r`. -/
def objHasKey (r : Rec) (k : JStr) : Bool := (objGet r k).isSome

/-- Property assignment `r[k] = v`: update in place when the key exists,
append otherwise (JS string-key insertion order). -/
def objSet : Rec → JStr → JStr → Rec
  | [], k, v => [(k, v)]
  | kv :: rest, k, v => if kv.1 == k then (k, v) :: rest else kv :: objSet rest k v

/-- Property read on an `undefined`-able object. -/
def objGetU : RecU → JStr → Option (Option JStr)
  | [], _ => none
  | kv :: rest, k => if kv.1 == k then some kv.2 else objGetU rest k

/-- Property assignment on an `undefined`-able object. -/
def objSetU : RecU → JStr → Option JStr → RecU
  | [], k, v => [(k, v)]
  | kv :: rest, k, v => if kv.1 == k then (k, v) :: rest else kv :: objSetU rest k v

/-- View a string-valued object as an `undefined`-able one. -/
def recToU (r : Rec) : RecU := r.map (fun kv => (kv.1, some kv.2))

/-- The thrown `Error` values of the engine, by the data their messages
interpolate: `missingParam name pattern` is
`Missing parameter "name" for route "pattern"`; `missingParamsFor
pattern` is `Missing parameters for route "pattern"` (no token name);
`uriError` is the `URIError` of `decodeURIComponent`;
`contractErr code` stands for a distinct error thrown by a
caller-supplied search-params contract; `invalidSearchFallback live` is
`Invalid search parameters and fallback: live` — note it interpolates
the live validation error only. -/
inductive JsError where
  | missingParam (name pattern : JStr)
  | missingParamsFor (pattern : JStr)
  | uriError
  | contractErr (code : Nat)
  | invalidSearchFallback (live : JsError)
  deriving DecidableEq, Repr

/-- A caller-supplied `searchParams` contract: validates a record or
throws. -/
abbrev SearchCap := Rec → Except JsError RecU

instance instDecEqExcept {e a : Type} [DecidableEq e] [DecidableEq a] :
    DecidableEq (Except e a) := fun x y =>
  match x, y with
  | .ok u, .ok v =>
    if h : u = v then isTrue (by rw [h]) else isFalse (fun hc => h (Except.ok.inj hc))
  | .error u, .error v =>
    if h : u = v then isTrue (by rw [h]) else isFalse (fun hc => h (Except.error.inj hc))
  | .ok _, .error _ => isFalse (fun hc => Except.noConfusion hc)
  | .error _, .ok _ => isFalse (fun hc => Except.noConfusion hc)

/-- Uppercase hex digit of a value below 16. -/
def hexDigitUpper (n : Nat) : Char :=
  if n < 10 then Char.ofNat (48 + n) else Char.ofNat (55 + n)

/-- ASCII hex digit test. -/
def isHexDigit (c : Char) : Bool :=
  (48 ≤ c.toNat && c.toNat ≤ 57) || (65 ≤ c.toNat && c.toNat ≤ 70) ||
    (97 ≤ c.toNat && c.toNat ≤ 102)

/-- Numeric value of a hex digit. -/
def hexVal (c : Char) : Nat :=
  if c.toNat ≤ 57 then c.toNat - 48
  else if c.toNat ≤ 70 then c.toNat - 55
  else c.toNat - 87

/-- UTF-8 bytes of one Unicode scalar value, by its code point. -/
def utf8EncodeNat (n : Nat) : List Nat :=
  if n < 0x80 then [n]
  else if n < 0x800 then [0xC0 + n / 64, 0x80 + n % 64]
  else if n < 0x10000 then
    [0xE0 + n / 4096, 0x80 + (n / 64) % 64, 0x80 + n % 64]
  else
    [0xF0 + n / 262144, 0x80 + (n / 4096) % 64, 0x80 + (n / 64) % 64,
      0x80 + n % 64]

/-- UTF-8 bytes of one character. -/
def utf8EncodeChar (c : Char) : List Nat := utf8EncodeNat c.toNat

/-- UTF-8 bytes of a string. -/
def utf8Encode (s : JStr) : List Nat :=
  s.foldr (fun c acc => utf8EncodeChar c ++ acc) []

/-- UTF-8 continuation byte test. -/
def contByte (b : Nat) : Bool := 0x80 ≤ b && b < 0xC0

/-- One strict UTF-8 decoding step: the scalar value led by the first
byte and the remaining bytes, or `none` on a malformed, overlong,
surrogate or out-of-range sequence. -/
def utf8DecodeOne : List Nat → Option (Nat × List Nat)
  | [] => none
  | b :: bs =>
    if b < 0x80 then some (b, bs)
    else if b < 0xC2 then none
    else if b < 0xE0 then
      match bs with
      | b1 :: bs1 =>
        if contByte b1 then some ((b - 0xC0) * 64 + (b1 - 0x80), bs1) else none
      | [] => none
    else if b < 0xF0 then
      match bs with
      | b1 :: b2 :: bs2 =>
        let n := (b - 0xE0) * 4096 + (b1 - 0x80) * 64 + (b2 - 0x80)
        if contByte b1 && contByte b2 && 0x800 ≤ n &&
            (n < 0xD800 || 0xE000 ≤ n) then some (n, bs2) else none
      | _ => none
    else if b < 0xF5 then
      match bs with
      | b1 :: b2 :: b3 :: bs3 =>
        let n := (b - 0xF0) * 262144 + (b1 - 0x80) * 4096 +
          (b2 - 0x80) * 64 + (b3 - 0x80)
        if contByte b1 && contByte b2 && contByte b3 && 0x10000 ≤ n &&
            n < 0x110000 then some (n, bs3) else none
      | _ => none
    else none

/-- A successful decoding step consumes at least one byte. -/
theorem utf8DecodeOne_shrink (l : List Nat) (p : Nat × List Nat)
    (h : utf8DecodeOne l = some p) : p.2.length < l.length := by
  obtain ⟨n, rest⟩ := p
  cases l with
  | nil => simp [utf8DecodeOne] at h
  | cons b bs =>
    simp only [utf8DecodeOne] at h
    repeat' split at h
    all_goals simp_all
    all_goals omega

/-- Strict UTF-8 decoding, driven by a character-count budget so that
the recursion is structural (a successful step always consumes at least
one byte, so a budget of `l.length` never runs out). -/
def utf8DecodeStrictGo : Nat → List Nat → Option JStr
  | _, [] => some []
  | 0, _ :: _ => none
  | fuel + 1, b :: bs =>
    match utf8DecodeOne (b :: bs) with
    | some p => (utf8DecodeStrictGo fuel p.2).map (fun r => Char.ofNat p.1 :: r)
    | none => none

/-- Strict UTF-8 decoding: `none` on any malformed sequence (the
failure mode `decodeURIComponent` turns into a `URIError`). -/
def utf8DecodeStrict (l : List Nat) : Option JStr :=
  utf8DecodeStrictGo l.length l

/-- The percent-unescaping pass of JS `decodeURIComponent`: each `%`
must be followed by two hex digits yielding one byte; every other
character contributes its own UTF-8 bytes. -/
def percentDecodeStrict : JStr → Option (List Nat)
  | [] => some []
  | c :: cs =>
    if c = '%' then
      match cs with
      | h1 :: h2 :: cs2 =>
        if isHexDigit h1 && isHexDigit h2 then
          (percentDecodeStrict cs2).map
            (fun r => (hexVal h1 * 16 + hexVal h2) :: r)
        else none
      | _ => none
    else (percentDecodeStrict cs).map (fun r => utf8EncodeChar c ++ r)

/-- Model of the JS builtin `decodeURIComponent`: `none` is a thrown
`URIError`. -/
def decodeURIComponent (s : JStr) : Option JStr :=
  (percentDecodeStrict s).bind utf8DecodeStrict

/-- Model of the JS builtin `encodeURIComponent` (the `encode` the
specification's PathBuilder algorithm names): every UTF-8 byte outside
the `uriUnescaped` set becomes an uppercase `%XX` escape. -/
def uriUnescapedByte (b : Nat) : Bool :=
  (48 ≤ b && b ≤ 57) || (65 ≤ b && b ≤ 90) || (97 ≤ b && b ≤ 122) ||
    b = 0x2D || b = 0x2E || b = 0x21 || b = 0x7E || b = 0x2A || b = 0x27 ||
    b = 0x28 || b = 0x29 || b = 0x5F

/-- Model of the JS builtin `encodeURIComponent`. -/
def encodeURIComponent (s : JStr) : JStr :=
  (utf8Encode s).foldr
    (fun b acc =>
      (if uriUnescapedByte b then [Char.ofNat b]
       else ['%', hexDigitUpper (b / 16), hexDigitUpper (b % 16)]) ++ acc)
    []

/-- Byte kept verbatim by the `application/x-www-form-urlencoded`
serialiser (`URLSearchParams.toString`). -/
def formSafeByte (b : Nat) : Bool :=
  b = 0x2A || b = 0x2D || b = 0x2E || b = 0x5F ||
    (48 ≤ b && b ≤ 57) || (65 ≤ b && b ≤ 90) || (97 ≤ b && b ≤ 122)

/-- One byte of form-urlencoded output: space becomes `+`, safe bytes
stay, the rest become uppercase `%XX`. -/
def formEncByte (b : Nat) : JStr :=
  if b = 0x20 then ['+']
  else if formSafeByte b then [Char.ofNat b]
  else ['%', hexDigitUpper (b / 16), hexDigitUpper (b % 16)]

/-- The string a key or value contributes to `URLSearchParams.toString`. -/
def formEncode (s : JStr) : JStr :=
  (utf8Encode s).foldr (fun b acc => formEncByte b ++ acc) []

/-- Join strings with a single-character separator. -/
def joinWith (c : Char) : List JStr → JStr
  | [] => []
  | [x] => x
  | x :: xs => x ++ c :: joinWith c xs

/-- Serialiser `URLSearchParams.toString` on an ordered pair list. -/
def uspToString (pairs : List (JStr × JStr)) : JStr :=
  joinWith '&' (pairs.map (fun kv => formEncode kv.1 ++ '=' :: formEncode kv.2))

/-- Lenient percent/plus unescaping used when PARSING a query string
(`URLSearchParams` never throws): `+` is a space, a valid `%XX` is a
byte, a malformed `%` stays literal.  Budget-driven like the decoders
above; every step consumes at least one character. -/
def formDecodeBytesGo : Nat → JStr → List Nat
  | _, [] => []
  | 0, _ :: _ => []
  | fuel + 1, c :: cs =>
    if c = '+' then 0x20 :: formDecodeBytesGo fuel cs
    else if c = '%' then
      match cs with
      | h1 :: h2 :: cs2 =>
        if isHexDigit h1 && isHexDigit h2 then
          (hexVal h1 * 16 + hexVal h2) :: formDecodeBytesGo fuel cs2
        else utf8EncodeChar c ++ formDecodeBytesGo fuel cs
      | _ => utf8EncodeChar c ++ formDecodeBytesGo fuel cs
    else utf8EncodeChar c ++ formDecodeBytesGo fuel cs

/-- The unescaping pass of query-string parsing. -/
def formDecodeBytes (s : JStr) : List Nat := formDecodeBytesGo s.length s

/-- Lenient UTF-8 decoding, same budget device: a malformed leading
byte becomes U+FFFD and one byte is consumed (`URLSearchParams`
parsing never throws). -/
def utf8DecodeLenientGo : Nat → List Nat → JStr
  | _, [] => []
  | 0, _ :: _ => []
  | fuel + 1, b :: bs =>
    match utf8DecodeOne (b :: bs) with
    | some p => Char.ofNat p.1 :: utf8DecodeLenientGo fuel p.2
    | none => Char.ofNat 0xFFFD :: utf8DecodeLenientGo fuel bs

/-- Lenient UTF-8 decoding. -/
def utf8DecodeLenient (l : List Nat) : JStr := utf8DecodeLenientGo l.length l

/-- Decode one form-urlencoded token. -/
def formDecode (s : JStr) : JStr := utf8DecodeLenient (formDecodeBytes s)

/-- Parsing `new URLSearchParams(search)`: strip one leading `?`, split on `&`,
skip empty pieces, split each piece at its first `=` (a piece without
`=` is a key with empty value), and form-decode keys and values. -/
def parseQuery (s : JStr) : List (JStr × JStr) :=
  let t := if leadsWith (js "?") s then s.drop 1 else s
  (splitOnChar '&' t).filterMap (fun piece =>
    if piece.isEmpty then none
    else
      match splitFirst (js "=") piece with
      | some ba => some (formDecode ba.1, formDecode ba.2)
      | none => some (formDecode piece, []))

/-- Source `extractParamNames`: split the pattern on `/`, keep
segments starting with `:`, drop the colon (the optional marker `?`
stays on the stored name). -/
def extractParamNames (pattern : JStr) : List JStr :=
  ((splitOnChar '/' pattern).filter (fun part => leadsWith (js ":") part)).map
    (fun name => name.drop 1)

/-- Source `validateParams`.  With an absent record it throws a
nameless `Missing parameters` error, and only when the FIRST declared
token is truthy and required; with a present record it finds the first
required token whose name is not a key of the record. -/
def validateParams (params : Option Rec) (paramsNames : List JStr)
    (pattern : JStr) : Except JsError Unit :=
  match params with
  | none =>
    if paramsNames.length > 0 && !(paramsNames.headD []).isEmpty &&
        !endsWithQ (paramsNames.headD []) then
      .error (.missingParamsFor pattern)
    else .ok ()
  | some ps =>
    match paramsNames.find? (fun name => !endsWithQ name && !objHasKey ps name) with
    | some missedParam => .error (.missingParam missedParam pattern)
    | none => .ok ()

/-- Source `buildPath`: for each token name in declared order,
`path.replace(":name", params?.[name] ?? "")`, reading the value under
the name without its optional marker. -/
def buildPath (pattern : JStr) (paramsNames : List JStr)
    (params : Option Rec) : JStr :=
  paramsNames.foldl
    (fun path name =>
      if endsWithQ name then
        replaceFirst path (':' :: name)
          ((params.bind (fun ps => objGet ps name.dropLast)).getD [])
      else
        replaceFirst path (':' :: name)
          ((params.bind (fun ps => objGet ps name)).getD []))
    pattern

/-- The body of the `extractPathParams` loop, walking pattern segments
and pathname segments positionally (`pathParts[i] || ""`). `none` is a
`URIError` thrown by `decodeURIComponent`. -/
def extractLoop : List JStr → List JStr → Rec → Option Rec
  | [], _, acc => some acc
  | patternPart :: pps, pathParts, acc =>
    let pathPart := pathParts.headD []
    if leadsWith (js ":") patternPart then
      let paramName := patternPart.drop 1
      let isOptional := endsWithQ paramName
      let cleanParamName := if isOptional then paramName.dropLast else paramName
      if !pathPart.isEmpty then
        match decodeURIComponent pathPart with
        | some decoded => extractLoop pps pathParts.tail (objSet acc cleanParamName decoded)
        | none => none
      else if !isOptional then
        extractLoop pps pathParts.tail (objSet acc cleanParamName [])
      else extractLoop pps pathParts.tail acc
    else extractLoop pps pathParts.tail acc

/-- Source `extractPathParams`. -/
def extractPathParams (pattern pathname : JStr) : Option Rec :=
  extractLoop (splitOnChar '/' pattern) (splitOnChar '/' pathname) []

/-- The `get` closure registered for a pattern: validate, substitute,
then (when a search-params contract is attached) validate
`params ?? ` the empty record, serialise the defined entries through `URLSearchParams`
and append the non-empty query after one `?`. -/
def getFun (pattern : JStr) (paramsNames : List JStr) (cap : Option SearchCap)
    (params : Option Rec) : Except JsError JStr :=
  match validateParams params paramsNames pattern with
  | .error e => .error e
  | .ok _ =>
    let path := buildPath pattern paramsNames params
    match cap with
    | none => .ok path
    | some contract =>
      match contract (params.getD []) with
      | .error e => .error e
      | .ok searchParamsData =>
        let pairs := searchParamsData.foldl
          (fun acc kv =>
            match kv.2 with
            | some v => acc ++ [(kv.1, v)]
            | none => acc)
          ([] : List (JStr × JStr))
        let s := uspToString pairs
        .ok (if s.isEmpty then path else path ++ '?' :: s)

/-- The location delivered by `useLocation()`. -/
structure Location where
  pathname : JStr
  search : JStr
  deriving DecidableEq, Repr

/-- The required tokens whose extracted value is absent or empty
(`!pathParams[name] || pathParams[name] === ""`), in declared order. -/
def missingOf (paramsNames : List JStr) (pathParams : Rec) : List JStr :=
  paramsNames.filter
    (fun name => !endsWithQ name && ((objGet pathParams name).getD []).isEmpty)

/-- The missing-required-parameter gate of the hook: with a fallback,
keep the missing tokens whose fallback value is falsy and throw on the
first of them; without one, throw on the first missing token. -/
def missingCheck (pattern : JStr) (missingParams : List JStr)
    (fallback : Option Rec) : Except JsError Unit :=
  match missingParams with
  | [] => .ok ()
  | m :: _ =>
    match fallback with
    | some fb =>
      match missingParams.filter (fun name => ((objGet fb name).getD []).isEmpty) with
      | [] => .ok ()
      | m2 :: _ => .error (.missingParam m2 pattern)
    | none => .error (.missingParam m pattern)

/-- The `mergedParams` object: a copy of the fallback overlaid, in enumeration
order, with every non-empty extracted path value. -/
def mergedOf (fallback : Option Rec) (pathParams : Rec) : Rec :=
  pathParams.foldl
    (fun acc kv => if kv.2.isEmpty then acc else objSet acc kv.1 kv.2)
    (fallback.getD [])

/-- The `searchParamsObject` record: the parsed query pairs written one by one
into a fresh object. -/
def searchObjOf (search : JStr) : Rec :=
  (parseQuery search).foldl (fun acc kv => objSet acc kv.1 kv.2) []

/-- JS object spread of `upd` over `base`, on records with possibly-undefined
values. -/
def overlayU (base : RecU) (upd : RecU) : RecU :=
  upd.foldl (fun acc kv => objSetU acc kv.1 kv.2) base

/-- The search-parameter phase of the hook: the contract runs only when
one is attached AND `location.search` is truthy; on live failure the
fallback record is validated instead, and a second failure throws the
composed error holding the LIVE error. -/
def readSearchPhase (cap : Option SearchCap) (loc : Location)
    (fallback : Option Rec) (mergedParams : Rec) : Except JsError RecU :=
  match cap with
  | some contract =>
    if loc.search.isEmpty then .ok (recToU mergedParams)
    else
      match contract (searchObjOf loc.search) with
      | .ok validated => .ok (overlayU (recToU mergedParams) validated)
      | .error e =>
        match fallback with
        | some fb =>
          match contract fb with
          | .ok validatedFallback => .ok (overlayU (recToU mergedParams) validatedFallback)
          | .error _ => .error (.invalidSearchFallback e)
        | none => .error e
  | none => .ok (recToU mergedParams)

/-- The `useParams` hook registered for a pattern, with the ambient
`useLocation()` value passed explicitly. -/
def useParamsHook (pattern : JStr) (paramsNames : List JStr)
    (cap : Option SearchCap) (loc : Location) (fallback : Option Rec) :
    Except JsError RecU :=
  match extractPathParams pattern loc.pathname with
  | none => .error .uriError
  | some pathParams =>
    match missingCheck pattern (missingOf paramsNames pathParams) fallback with
    | .error e => .error e
    | .ok _ => readSearchPhase cap loc fallback (mergedOf fallback pathParams)

/-- A route declaration node: optional `path` segment, optional
`searchParams` contract, children. -/
inductive RouteDecl where
  | node (path : Option JStr) (searchParams : Option SearchCap)
      (children : List RouteDecl)

/-- The value registered per pattern (the callable `path` with its
`pattern` field and closed-over data). -/
structure Entry where
  pattern : JStr
  paramsNames : List JStr
  cap : Option SearchCap

/-- The flat `routes` object. -/
abbrev RMap := List (JStr × Entry)

/-- JS assignment `routes[pattern] = entry`. -/
def rmapSet : RMap → JStr → Entry → RMap
  | [], k, v => [(k, v)]
  | kv :: rest, k, v => if kv.1 == k then (k, v) :: rest else kv :: rmapSet rest k v

/-- The loop body of `_inferRouteObject` over a child list: for a child
with a `path`, build `parent + "/" + segment`, strip ONE leading slash
when the result starts with `//`, register when the result starts with
`/`, and recurse into its children with the new prefix; a child without
a `path` passes the prefix through. -/
def inferList : List RouteDecl → JStr → RMap → RMap
  | [], _, routes => routes
  | .node p sp children :: cs, parent, routes =>
    match p with
    | some seg =>
      let path0 := parent ++ '/' :: seg
      let path := if leadsWith (js "//") path0 then path0.drop 1 else path0
      let routes' :=
        if leadsWith (js "/") path then
          rmapSet routes path ⟨path, extractParamNames path, sp⟩
        else routes
      inferList cs parent (inferList children path routes')
    | none => inferList cs parent (inferList children parent routes)

/-- Source `inferRouteObject(root, basename)`: flatten starting from a
wrapper node whose only child is the root. -/
def inferRouteObjectM (root : RouteDecl) (basename : JStr) : RMap :=
  inferList [root] basename []

/-! ### Record lemmas -/

theorem objGet_objSet_self (r : Rec) (k v : JStr) :
    objGet (objSet r k v) k = some v := by
  induction r with
  | nil => simp [objSet, objGet]
  | cons kv rest ih =>
    by_cases h : kv.1 = k
    · simp [objSet, objGet, h]
    · simp [objSet, objGet, h, ih]

theorem objGet_objSet_ne (r : Rec) (k v k' : JStr) (h : k' ≠ k) :
    objGet (objSet r k v) k' = objGet r k' := by
  induction r with
  | nil => simp [objSet, objGet, Ne.symm h]
  | cons kv rest ih =>
    by_cases hk : kv.1 = k
    · subst hk
      simp [objSet, objGet, h, Ne.symm h]
    · by_cases hk' : kv.1 = k'
      · simp [objSet, objGet, hk, hk', h]
      · simp [objSet, objGet, hk, hk', ih]

theorem objGet_eq_some_mem (r : Rec) (k v : JStr)
    (h : objGet r k = some v) : (k, v) ∈ r := by
  induction r with
  | nil => simp [objGet] at h
  | cons kv rest ih =>
    by_cases hk : kv.1 = k
    · simp [objGet, hk] at h
      have hkv : kv = (k, v) := by
        cases kv
        simp_all
      rw [hkv]
      exact List.mem_cons_self _ _
    · simp [objGet, hk] at h
      exact List.mem_cons_of_mem _ (ih h)

/-- Lookup after a left fold of assignments over a name list, where each
name receives a value depending only on itself. -/
theorem objGet_foldl_objSet (val : JStr → JStr) (names : List JStr) :
    ∀ (acc : Rec) (k : JStr),
      objGet (names.foldl (fun a n => objSet a n (val n)) acc) k =
        if k ∈ names then some (val k) else objGet acc k := by
  induction names with
  | nil => simp
  | cons n ns ih =>
    intro acc k
    by_cases hk : k ∈ ns
    · simp [List.foldl_cons, ih, hk]
    · by_cases hn : k = n
      · subst hn
        simp [List.foldl_cons, ih, hk, objGet_objSet_self]
      · simp [List.foldl_cons, ih, hk, hn, objGet_objSet_ne _ _ _ _ hn]

/-! ### Split / join lemmas -/

theorem splitOnChar_no_sep (sep : Char) (s : JStr)
    (h : ∀ c ∈ s, c ≠ sep) : splitOnChar sep s = [s] := by
  induction s with
  | nil => simp [splitOnChar]
  | cons c rest ih =>
    have hc : c ≠ sep := h c (List.mem_cons_self c rest)
    have : splitOnChar sep rest = [rest] :=
      ih (fun x hx => h x (List.mem_cons_of_mem _ hx))
    simp [splitOnChar, hc, this]

theorem splitOnChar_append_sep (sep : Char) (a b : JStr)
    (h : ∀ c ∈ a, c ≠ sep) :
    splitOnChar sep (a ++ sep :: b) = a :: splitOnChar sep b := by
  induction a with
  | nil => simp [splitOnChar]
  | cons c rest ih =>
    have hc : c ≠ sep := h c (List.mem_cons_self c rest)
    have := ih (fun x hx => h x (List.mem_cons_of_mem _ hx))
    simp [splitOnChar, hc, this]

/-! ### Occurrence-search and replacement lemmas -/

theorem leadsWith_append_self (p t : JStr) : leadsWith p (p ++ t) = true := by
  induction p with
  | nil => simp [leadsWith]
  | cons c cs ih => simp [leadsWith, ih]

theorem splitFirst_at_head (pat t : JStr) :
    splitFirst pat (pat ++ t) = some ([], t) := by
  cases hp : pat ++ t with
  | nil =>
    have : pat = [] ∧ t = [] := by
      constructor
      · cases pat with
        | nil => rfl
        | cons c cs => simp at hp
      · cases pat with
        | nil => simpa using hp
        | cons c cs => simp at hp
    obtain ⟨h1, h2⟩ := this
    subst h1; subst h2
    simp [splitFirst, leadsWith]
  | cons c cs =>
    rw [← hp]
    have hlw : leadsWith pat (pat ++ t) = true := leadsWith_append_self pat t
    have hdrop : List.drop pat.length (pat ++ t) = t := by
      simp
    cases pat with
    | nil =>
      simp at hp
      subst hp
      simp [splitFirst, leadsWith]
    | cons p ps =>
      have hp' : (p :: ps) ++ t = p :: (ps ++ t) := rfl
      rw [hp']
      rw [show splitFirst (p :: ps) (p :: (ps ++ t)) =
        if leadsWith (p :: ps) (p :: (ps ++ t)) then
          some ([], List.drop (p :: ps).length (p :: (ps ++ t)))
        else (splitFirst (p :: ps) (ps ++ t)).map (fun q => (p :: q.1, q.2))
        from rfl]
      rw [hp'] at hlw hdrop
      simp [hlw, hdrop]

theorem splitFirst_append_miss (p0 : Char) (ps a b : JStr)
    (h : ∀ c ∈ a, c ≠ p0) :
    splitFirst (p0 :: ps) (a ++ b) =
      (splitFirst (p0 :: ps) b).map (fun q => (a ++ q.1, q.2)) := by
  induction a with
  | nil =>
    simp
  | cons c rest ih =>
    have hc : c ≠ p0 := h c (List.mem_cons_self c rest)
    have hlw : leadsWith (p0 :: ps) (c :: (rest ++ b)) = false := by
      simp [leadsWith]
      intro he
      exact absurd he.symm hc
    have := ih (fun x hx => h x (List.mem_cons_of_mem _ hx))
    rw [show splitFirst (p0 :: ps) ((c :: rest) ++ b) =
      if leadsWith (p0 :: ps) (c :: (rest ++ b)) then
        some ([], List.drop (p0 :: ps).length (c :: (rest ++ b)))
      else (splitFirst (p0 :: ps) (rest ++ b)).map (fun q => (c :: q.1, q.2))
      from rfl]
    rw [hlw]
    simp only [Bool.false_eq_true, if_false]
    rw [this]
    cases hb : splitFirst (p0 :: ps) b <;> simp

theorem getSubstitution_no_dollar (m b a repl : JStr)
    (h : ∀ c ∈ repl, c ≠ '$') : getSubstitution m b a repl = repl := by
  induction repl with
  | nil => simp [getSubstitution]
  | cons c rest ih =>
    have hc : c ≠ '$' := h c (List.mem_cons_self c rest)
    have hrest := ih (fun x hx => h x (List.mem_cons_of_mem _ hx))
    rw [getSubstitution.eq_def]
    simp [hc, hrest]

/-- Replacing `inside` text that contains the first occurrence of the
token at a known position: the part before the token contains no colon,
the token is literal, the replacement has no dollar escape. -/
theorem replaceFirst_exact (a n t v : JStr)
    (ha : ∀ c ∈ a, c ≠ ':') (hv : ∀ c ∈ v, c ≠ '$') :
    replaceFirst (a ++ (':' :: n) ++ t) (':' :: n) v = a ++ v ++ t := by
  unfold replaceFirst
  rw [List.append_assoc]
  rw [splitFirst_append_miss ':' n a ((':' :: n) ++ t) ha]
  rw [splitFirst_at_head (':' :: n) t]
  simp [getSubstitution_no_dollar _ _ _ _ hv]

/-! ### UTF-8 round trip and `decodeURIComponent` on percent-free text -/

theorem utf8DecodeStrict_nil : utf8DecodeStrict [] = some [] := rfl

/-- The budget does not matter as long as it covers the byte count. -/
theorem utf8DecodeStrictGo_irrel : ∀ (f1 f2 : Nat) (l : List Nat),
    l.length ≤ f1 → l.length ≤ f2 →
    utf8DecodeStrictGo f1 l = utf8DecodeStrictGo f2 l := by
  intro f1
  induction f1 with
  | zero =>
    intro f2 l h1 h2
    have : l = [] := List.length_eq_zero.mp (Nat.le_zero.mp h1)
    subst this
    cases f2 <;> rfl
  | succ f ih =>
    intro f2 l h1 h2
    cases l with
    | nil => cases f2 <;> rfl
    | cons b bs =>
      cases f2 with
      | zero => simp at h2
      | succ f2' =>
        simp only [utf8DecodeStrictGo]
        cases hdo : utf8DecodeOne (b :: bs) with
        | none => rfl
        | some p =>
          have hlen := utf8DecodeOne_shrink _ _ hdo
          simp only [List.length_cons] at h1 h2 hlen
          show Option.map (fun r => Char.ofNat p.1 :: r) (utf8DecodeStrictGo f p.2) =
            Option.map (fun r => Char.ofNat p.1 :: r) (utf8DecodeStrictGo f2' p.2)
          rw [ih f2' p.2 (by omega) (by omega)]

theorem utf8DecodeStrict_step (l : List Nat) (n : Nat) (rest : List Nat)
    (h : utf8DecodeOne l = some (n, rest)) :
    utf8DecodeStrict l = (utf8DecodeStrict rest).map (fun r => Char.ofNat n :: r) := by
  cases l with
  | nil => simp [utf8DecodeOne] at h
  | cons b bs =>
    have hlen := utf8DecodeOne_shrink _ _ h
    unfold utf8DecodeStrict
    simp only [List.length_cons, utf8DecodeStrictGo, h]
    simp only [List.length_cons] at hlen
    rw [utf8DecodeStrictGo_irrel bs.length rest.length rest (by omega) (by omega)]

/-- Decoding the UTF-8 bytes of a valid scalar value recovers it and
leaves the following bytes untouched. -/
theorem utf8DecodeOne_encNat (n : Nat)
    (hval : n < 0xd800 ∨ (0xe000 ≤ n ∧ n < 0x110000)) (bs : List Nat) :
    utf8DecodeOne (utf8EncodeNat n ++ bs) = some (n, bs) := by
  by_cases h1 : n < 0x80
  · rw [show utf8EncodeNat n = [n] by simp [utf8EncodeNat, h1]]
    simp [utf8DecodeOne, h1]
  · by_cases h2 : n < 0x800
    · rw [show utf8EncodeNat n = [0xC0 + n / 64, 0x80 + n % 64] by
        simp [utf8EncodeNat, h1, h2]]
      have e1 : ¬ (0xC0 + n / 64 < 0x80) := by omega
      have e2 : ¬ (0xC0 + n / 64 < 0xC2) := by omega
      have e3 : 0xC0 + n / 64 < 0xE0 := by omega
      have e4 : contByte (0x80 + n % 64) = true := by
        simp only [contByte]
        simp
        omega
      have e5 : (0xC0 + n / 64 - 0xC0) * 64 + (0x80 + n % 64 - 0x80) = n := by
        omega
      simp only [List.cons_append, List.nil_append, utf8DecodeOne]
      rw [if_neg e1, if_neg e2, if_pos e3]
      simp only [e4, if_true, ite_true, e5]
    · by_cases h3 : n < 0x10000
      · rw [show utf8EncodeNat n =
          [0xE0 + n / 4096, 0x80 + (n / 64) % 64, 0x80 + n % 64] by
          simp [utf8EncodeNat, h1, h2, h3]]
        have e1 : ¬ (0xE0 + n / 4096 < 0x80) := by omega
        have e2 : ¬ (0xE0 + n / 4096 < 0xC2) := by omega
        have e3 : ¬ (0xE0 + n / 4096 < 0xE0) := by omega
        have e4 : 0xE0 + n / 4096 < 0xF0 := by omega
        have e7 : (0xE0 + n / 4096 - 0xE0) * 4096 +
            (0x80 + (n / 64) % 64 - 0x80) * 64 + (0x80 + n % 64 - 0x80) = n := by
          omega
        simp only [List.cons_append, List.nil_append, utf8DecodeOne]
        rw [if_neg e1, if_neg e2, if_neg e3, if_pos e4]
        simp only [e7]
        have e10 : (contByte (0x80 + (n / 64) % 64) && contByte (0x80 + n % 64) &&
            decide (0x800 ≤ n) && (decide (n < 0xD800) || decide (0xE000 ≤ n))) = true := by
          simp [contByte]
          omega
        simp only [e10, if_true, ite_true]
      · rw [show utf8EncodeNat n =
          [0xF0 + n / 262144, 0x80 + (n / 4096) % 64, 0x80 + (n / 64) % 64,
            0x80 + n % 64] by simp [utf8EncodeNat, h1, h2, h3]]
        have hup : n < 0x110000 := by omega
        have e1 : ¬ (0xF0 + n / 262144 < 0x80) := by omega
        have e2 : ¬ (0xF0 + n / 262144 < 0xC2) := by omega
        have e3 : ¬ (0xF0 + n / 262144 < 0xE0) := by omega
        have e4 : ¬ (0xF0 + n / 262144 < 0xF0) := by omega
        have e5 : 0xF0 + n / 262144 < 0xF5 := by omega
        have e7 : (0xF0 + n / 262144 - 0xF0) * 262144 +
            (0x80 + (n / 4096) % 64 - 0x80) * 4096 +
            (0x80 + (n / 64) % 64 - 0x80) * 64 + (0x80 + n % 64 - 0x80) = n := by
          omega
        simp only [List.cons_append, List.nil_append, utf8DecodeOne]
        rw [if_neg e1, if_neg e2, if_neg e3, if_neg e4, if_pos e5]
        simp only [e7]
        have e10 : (contByte (0x80 + (n / 4096) % 64) &&
            contByte (0x80 + (n / 64) % 64) && contByte (0x80 + n % 64) &&
            decide (0x10000 ≤ n) && decide (n < 0x110000)) = true := by
          simp [contByte]
          omega
        simp only [e10, if_true, ite_true]

/-- The code point of any `Char` is a valid scalar value. -/
theorem char_toNat_valid (c : Char) :
    c.toNat < 0xd800 ∨ (0xe000 ≤ c.toNat ∧ c.toNat < 0x110000) := by
  have h := c.valid
  unfold UInt32.isValidChar Nat.isValidChar at h
  exact h

/-- Strict UTF-8 decoding inverts encoding. -/
theorem utf8DecodeStrict_encode (s : JStr) :
    utf8DecodeStrict (utf8Encode s) = some s := by
  induction s with
  | nil => exact utf8DecodeStrict_nil
  | cons c cs ih =>
    have h1 : utf8Encode (c :: cs) = utf8EncodeNat c.toNat ++ utf8Encode cs := rfl
    rw [h1,
      utf8DecodeStrict_step _ c.toNat _
        (utf8DecodeOne_encNat c.toNat (char_toNat_valid c) _),
      ih, Char.ofNat_toNat]
    rfl

/-- On percent-free text the unescaping pass is plain UTF-8 encoding. -/
theorem percentDecodeStrict_noPercent (s : JStr) (h : ∀ c ∈ s, c ≠ '%') :
    percentDecodeStrict s = some (utf8Encode s) := by
  induction s with
  | nil => simp [percentDecodeStrict, utf8Encode]
  | cons c cs ih =>
    have hc : c ≠ '%' := h c (List.mem_cons_self c cs)
    have hrec := ih (fun x hx => h x (List.mem_cons_of_mem _ hx))
    have hstep : percentDecodeStrict (c :: cs) =
        (percentDecodeStrict cs).map (fun r => utf8EncodeChar c ++ r) := by
      rw [percentDecodeStrict.eq_def]
      simp [hc]
    rw [hstep, hrec]
    rfl

/-- Builtin `decodeURIComponent` is the identity on percent-free text. -/
theorem decodeURIComponent_noPercent (s : JStr) (h : ∀ c ∈ s, c ≠ '%') :
    decodeURIComponent s = some s := by
  unfold decodeURIComponent
  rw [percentDecodeStrict_noPercent s h]
  simpa using utf8DecodeStrict_encode s

/-! ### Patterns as segment lists

A well-formed pattern is the `/`-prefixed join of its segments, each a
static segment or a `:name` parameter token.  The build and round-trip
theorems quantify over this parsed form. -/

/-- One pattern segment. -/
inductive Seg where
  | lit (s : JStr)
  | tok (name : JStr)

/-- The text of a segment inside the pattern. -/
def Seg.str : Seg → JStr
  | .lit s => s
  | .tok n => ':' :: n

/-- The pattern a segment list denotes: a leading `/` before every
segment. -/
def renderPattern (segs : List Seg) : JStr :=
  segs.foldr (fun sg acc => '/' :: sg.str ++ acc) []

/-- The parameter token names, in declared order, optional markers
kept. -/
def tokNames (segs : List Seg) : List JStr :=
  segs.filterMap (fun sg => match sg with | .tok n => some n | .lit _ => none)

/-- A static segment: free of `:` and `/`. -/
def litOK (s : JStr) : Bool := s.all (fun c => !(c = ':' || c = '/'))

/-- A token name without its optional marker: non-empty and free of
the structural characters. -/
def tokBaseOK (n : JStr) : Bool :=
  !n.isEmpty && n.all (fun c => !(c = ':' || c = '/' || c = '%' || c = '$' || c = '?'))

/-- A token name, allowing one trailing optional marker. -/
def tokNameOK (n : JStr) : Bool :=
  if endsWithQ n then tokBaseOK n.dropLast else tokBaseOK n

/-- Segment well-formedness. -/
def segOK : Seg → Bool
  | .lit s => litOK s
  | .tok n => tokNameOK n

/-- A segment that is not an optional token. -/
def segReq : Seg → Bool
  | .lit _ => true
  | .tok n => !endsWithQ n

/-- The value `buildPath` substitutes for a token name out of a present
record: `params[cleanName] ?? ""`. -/
def substValue (ps : Rec) (name : JStr) : JStr :=
  if endsWithQ name then (objGet ps name.dropLast).getD []
  else (objGet ps name).getD []

/-- A segment after substitution. -/
def substSeg (ps : Rec) : Seg → Seg
  | .lit s => .lit s
  | .tok n => .lit (substValue ps n)

theorem segOK_str_noSlash (sg : Seg) (h : segOK sg = true) :
    ∀ c ∈ sg.str, c ≠ '/' := by
  cases sg with
  | lit s =>
    simp only [segOK, litOK, List.all_eq_true] at h
    intro c hc
    have := h c hc
    simp at this
    exact this.2
  | tok n =>
    intro c hc
    simp only [Seg.str] at hc
    rcases List.mem_cons.mp hc with h1 | h2
    · subst h1
      decide
    · simp only [segOK, tokNameOK] at h
      by_cases hq : endsWithQ n = true
      · rw [if_pos hq] at h
        simp only [tokBaseOK, Bool.and_eq_true, List.all_eq_true] at h
        by_cases hmem : c ∈ n.dropLast
        · have := h.2 c hmem
          simp at this
          exact fun he => absurd he (by simp [this])
        · -- c is the last character, the optional marker
          have hlast : c = '?' := by
            cases hgl : n.getLast? with
            | none =>
              cases n with
              | nil => simp at h2
              | cons x xs => simp [List.getLast?_eq_getLast] at hgl
            | some glc =>
              have hql : glc = '?' := by
                simp [endsWithQ, hgl] at hq
                exact hq
              have hsplit : n.dropLast ++ [glc] = n :=
                List.dropLast_append_getLast? glc hgl
              rw [← hsplit] at h2
              rcases List.mem_append.mp h2 with hmem2 | hmem2
              · exact absurd hmem2 hmem
              · simp at hmem2
                rw [hmem2, hql]
          subst hlast
          decide
      · rw [if_neg hq] at h
        simp only [tokBaseOK, Bool.and_eq_true, List.all_eq_true] at h
        have := h.2 c h2
        simp at this
        exact fun he => absurd he (by simp [this])

theorem segOK_lit_noColon (s : JStr) (h : segOK (.lit s) = true) :
    ∀ c ∈ s, c ≠ ':' := by
  simp only [segOK, litOK, List.all_eq_true] at h
  intro c hc
  have := h c hc
  simp at this
  exact this.1

/-- Splitting the rendered pattern recovers the empty head and the
segment texts. -/
theorem splitOnChar_renderPattern (segs : List Seg)
    (h : ∀ sg ∈ segs, segOK sg = true) :
    splitOnChar '/' (renderPattern segs) = [] :: segs.map Seg.str := by
  induction segs with
  | nil => simp [renderPattern, splitOnChar]
  | cons sg rest ih =>
    have hsg : segOK sg = true := h sg (List.mem_cons_self sg rest)
    have hrest := ih (fun x hx => h x (List.mem_cons_of_mem _ hx))
    have hr : renderPattern (sg :: rest) = '/' :: (sg.str ++ renderPattern rest) := by
      simp [renderPattern]
    rw [hr]
    rw [show splitOnChar '/' ('/' :: (sg.str ++ renderPattern rest)) =
      [] :: splitOnChar '/' (sg.str ++ renderPattern rest) by simp [splitOnChar]]
    cases rest with
    | nil =>
      simp only [renderPattern, List.foldr_nil, List.append_nil]
      rw [splitOnChar_no_sep '/' sg.str (segOK_str_noSlash sg hsg)]
      simp
    | cons sg2 rest2 =>
      have hr2 : renderPattern (sg2 :: rest2) = '/' :: (sg2.str ++ renderPattern rest2) := by
        simp [renderPattern]
      have htail : splitOnChar '/' (sg2.str ++ renderPattern rest2) =
          Seg.str sg2 :: rest2.map Seg.str := by
        have hpeel := hrest
        rw [hr2] at hpeel
        rw [show splitOnChar '/' ('/' :: (sg2.str ++ renderPattern rest2)) =
          [] :: splitOnChar '/' (sg2.str ++ renderPattern rest2) by
            simp [splitOnChar]] at hpeel
        simpa using hpeel
      rw [hr2]
      rw [splitOnChar_append_sep '/' sg.str _ (segOK_str_noSlash sg hsg)]
      rw [htail]
      simp

theorem leadsWith_colon_lit (s : JStr) (h : ∀ c ∈ s, c ≠ ':') :
    leadsWith (js ":") s = false := by
  cases s with
  | nil => rfl
  | cons c cs =>
    have hc := h c (List.mem_cons_self c cs)
    simp [js, leadsWith]
    exact fun he => absurd he.symm hc

theorem tokNames_of_strs (segs : List Seg)
    (h : ∀ sg ∈ segs, segOK sg = true) :
    ((segs.map Seg.str).filter (fun part => leadsWith (js ":") part)).map
      (fun name => name.drop 1) = tokNames segs := by
  induction segs with
  | nil => simp [tokNames]
  | cons sg rest ih =>
    have hsg := h sg (List.mem_cons_self sg rest)
    have hrest := ih (fun x hx => h x (List.mem_cons_of_mem _ hx))
    cases sg with
    | lit s =>
      have hlit : leadsWith (js ":") s = false :=
        leadsWith_colon_lit s (segOK_lit_noColon s hsg)
      simp [Seg.str, tokNames, hlit]
      simpa [tokNames] using hrest
    | tok n =>
      have htok : leadsWith (js ":") (':' :: n) = true := by
        simp [js, leadsWith]
      simp [Seg.str, tokNames, htok]
      simpa [tokNames] using hrest

/-- Applying `extractParamNames` to a rendered pattern yields the declared token
names in order. -/
theorem extractParamNames_render (segs : List Seg)
    (h : ∀ sg ∈ segs, segOK sg = true) :
    extractParamNames (renderPattern segs) = tokNames segs := by
  unfold extractParamNames
  rw [splitOnChar_renderPattern segs h]
  have h0 : leadsWith (js ":") ([] : JStr) = false := rfl
  rw [List.filter_cons]
  simp only [h0, Bool.false_eq_true, if_false]
  exact tokNames_of_strs segs h

/-- The substitution pass of `buildPath`: on a rendered pattern with a
present record, every token placeholder is replaced, left to right, by
`params[cleanName] ?? ""`, verbatim. -/
theorem buildPath_render (ps : Rec) (segs : List Seg) :
    ∀ (pre : JStr),
      (∀ c ∈ pre, c ≠ ':') →
      (∀ sg ∈ segs, segOK sg = true) →
      (∀ n ∈ tokNames segs, ∀ c ∈ substValue ps n, c ≠ ':' ∧ c ≠ '$') →
      buildPath (pre ++ renderPattern segs) (tokNames segs) (some ps) =
        pre ++ renderPattern (segs.map (substSeg ps)) := by
  induction segs with
  | nil =>
    intro pre hpre hsegs hvals
    simp [buildPath, renderPattern, tokNames]
  | cons sg rest ih =>
    intro pre hpre hsegs hvals
    cases sg with
    | lit s =>
      have hsg := hsegs _ (List.mem_cons_self _ _)
      have h1 : tokNames (Seg.lit s :: rest) = tokNames rest := by
        simp [tokNames]
      have h2 : pre ++ renderPattern (Seg.lit s :: rest) =
          (pre ++ '/' :: s) ++ renderPattern rest := by
        simp [renderPattern, Seg.str]
      have hpre' : ∀ c ∈ pre ++ '/' :: s, c ≠ ':' := by
        intro c hc
        rcases List.mem_append.mp hc with h3 | h3
        · exact hpre c h3
        · rcases List.mem_cons.mp h3 with h4 | h4
          · subst h4
            decide
          · exact segOK_lit_noColon s hsg c h4
      have hvals' : ∀ n ∈ tokNames rest, ∀ c ∈ substValue ps n, c ≠ ':' ∧ c ≠ '$' := by
        intro n hn
        exact hvals n (by rw [h1]; exact hn)
      rw [h1, h2,
        ih (pre ++ '/' :: s) hpre'
          (fun x hx => hsegs x (List.mem_cons_of_mem _ hx)) hvals']
      simp [renderPattern, substSeg, Seg.str]
    | tok n =>
      have hntok : n ∈ tokNames (Seg.tok n :: rest) := by
        simp [tokNames]
      have hv := hvals n hntok
      have h1 : tokNames (Seg.tok n :: rest) = n :: tokNames rest := by
        simp [tokNames]
      have h2 : pre ++ renderPattern (Seg.tok n :: rest) =
          (pre ++ ['/']) ++ (':' :: n) ++ renderPattern rest := by
        simp [renderPattern, Seg.str]
      have hpre1 : ∀ c ∈ pre ++ ['/'], c ≠ ':' := by
        intro c hc
        rcases List.mem_append.mp hc with h3 | h3
        · exact hpre c h3
        · simp at h3
          subst h3
          decide
      have hstep : buildPath (pre ++ renderPattern (Seg.tok n :: rest))
          (n :: tokNames rest) (some ps) =
          buildPath ((pre ++ ['/']) ++ substValue ps n ++ renderPattern rest)
            (tokNames rest) (some ps) := by
        have hrepl : (if endsWithQ n then
            replaceFirst (pre ++ renderPattern (Seg.tok n :: rest)) (':' :: n)
              (((some ps).bind (fun r => objGet r n.dropLast)).getD [])
          else
            replaceFirst (pre ++ renderPattern (Seg.tok n :: rest)) (':' :: n)
              (((some ps).bind (fun r => objGet r n)).getD [])) =
            (pre ++ ['/']) ++ substValue ps n ++ renderPattern rest := by
          have hex := replaceFirst_exact (pre ++ ['/']) n (renderPattern rest)
            (substValue ps n) hpre1 (fun c hc => (hv c hc).2)
          rw [← h2] at hex
          by_cases hq : endsWithQ n = true
          · simpa [substValue, hq] using hex
          · simpa [substValue, hq] using hex
        simp only [buildPath, List.foldl_cons]
        rw [hrepl]
      rw [h1, hstep]
      have hpre2 : ∀ c ∈ (pre ++ ['/']) ++ substValue ps n, c ≠ ':' := by
        intro c hc
        rcases List.mem_append.mp hc with h3 | h3
        · exact hpre1 c h3
        · exact (hv c h3).1
      have hvals' : ∀ m ∈ tokNames rest, ∀ c ∈ substValue ps m, c ≠ ':' ∧ c ≠ '$' := by
        intro m hm
        exact hvals m (by rw [h1]; exact List.mem_cons_of_mem _ hm)
      have := ih ((pre ++ ['/']) ++ substValue ps n) hpre2
        (fun x hx => hsegs x (List.mem_cons_of_mem _ hx)) hvals'
      rw [List.append_assoc ((pre ++ ['/'])) (substValue ps n) (renderPattern rest)] at this ⊢
      rw [this]
      simp [renderPattern, substSeg, Seg.str]

/-- A value that survives the exact round trip: non-empty and free of
`/`, `:`, `%` and `$`. -/
def valRound (v : JStr) : Bool :=
  !v.isEmpty && v.all (fun c => !(c = '/' || c = ':' || c = '%' || c = '$'))

theorem substSeg_segOK (ps : Rec) (sg : Seg)
    (hsg : segOK sg = true)
    (hv : ∀ n, sg = Seg.tok n → ∀ c ∈ substValue ps n, c ≠ ':' ∧ c ≠ '/') :
    segOK (substSeg ps sg) = true := by
  cases sg with
  | lit s => simpa [substSeg] using hsg
  | tok n =>
    simp only [substSeg, segOK, litOK, List.all_eq_true]
    intro c hc
    have := hv n rfl c hc
    simp [this.1, this.2]

/-- The token names of the tail are token names of the whole list. -/
theorem tokNames_cons_lit (s : JStr) (rest : List Seg) :
    tokNames (Seg.lit s :: rest) = tokNames rest := by
  simp [tokNames]

theorem tokNames_cons_tok (n : JStr) (rest : List Seg) :
    tokNames (Seg.tok n :: rest) = n :: tokNames rest := by
  simp [tokNames]

theorem valRound_spec (v : JStr) (h : valRound v = true) :
    v ≠ [] ∧ ∀ c ∈ v, c ≠ '/' ∧ c ≠ ':' ∧ c ≠ '%' ∧ c ≠ '$' := by
  simp only [valRound, Bool.and_eq_true, List.all_eq_true] at h
  constructor
  · simpa using h.1
  · intro c hc
    have hcc := h.2 c hc
    simp at hcc
    tauto

theorem extractLoop_step_static (s : JStr) (hlit : leadsWith (js ":") s = false)
    (pps paths : List JStr) (acc : Rec) :
    extractLoop (s :: pps) paths acc = extractLoop pps paths.tail acc := by
  simp [extractLoop, hlit]

theorem extractLoop_step_tok (n : JStr) (pps : List JStr) (v : JStr)
    (paths : List JStr) (acc : Rec)
    (hq : endsWithQ n = false) (hne : v.isEmpty = false) (d : JStr)
    (hdec : decodeURIComponent v = some d) :
    extractLoop ((':' :: n) :: pps) (v :: paths) acc =
      extractLoop pps paths (objSet acc n d) := by
  have htok : leadsWith (js ":") (':' :: n) = true := by
    simp [js, leadsWith]
  simp [extractLoop, htok, hq, hne, hdec]

/-- Walking a rendered pattern against its substituted rendering, when
all tokens are required and all values round-trip safe, records every
token value in declared order. -/
theorem extractLoop_subst (ps : Rec) :
    ∀ (segs : List Seg) (acc : Rec),
      (∀ sg ∈ segs, segOK sg = true ∧ segReq sg = true) →
      (∀ n ∈ tokNames segs, ∃ v, objGet ps n = some v ∧ valRound v = true) →
      extractLoop (segs.map Seg.str) (segs.map (fun sg => (substSeg ps sg).str)) acc =
        some ((tokNames segs).foldl
          (fun a n => objSet a n ((objGet ps n).getD [])) acc) := by
  intro segs
  induction segs with
  | nil =>
    intro acc hsegs hvals
    simp [extractLoop, tokNames]
  | cons sg rest ih =>
    intro acc hsegs hvals
    obtain ⟨hsg, hreq⟩ := hsegs sg (List.mem_cons_self sg rest)
    have hsegs' := fun x hx => hsegs x (List.mem_cons_of_mem _ hx)
    cases sg with
    | lit s =>
      have hlit : leadsWith (js ":") s = false :=
        leadsWith_colon_lit s (segOK_lit_noColon s hsg)
      have hvals' : ∀ n ∈ tokNames rest, ∃ v, objGet ps n = some v ∧ valRound v = true := by
        intro n hn
        exact hvals n (by rw [tokNames_cons_lit]; exact hn)
      have hmapP : (Seg.lit s :: rest).map Seg.str = s :: rest.map Seg.str := rfl
      have hmapV : (Seg.lit s :: rest).map (fun sg => (substSeg ps sg).str) =
          s :: rest.map (fun sg => (substSeg ps sg).str) := rfl
      rw [hmapP, hmapV, extractLoop_step_static s hlit, List.tail_cons,
        ih acc hsegs' hvals', tokNames_cons_lit]
    | tok n =>
      have hn : n ∈ tokNames (Seg.tok n :: rest) := by
        rw [tokNames_cons_tok]
        exact List.mem_cons_self _ _
      obtain ⟨v, hv, hvr⟩ := hvals n hn
      obtain ⟨hvne, hvchars⟩ := valRound_spec v hvr
      have hreqn : endsWithQ n = false := by
        simpa [segReq] using hreq
      have hsubv : substValue ps n = v := by
        simp [substValue, hreqn, hv]
      have hvals' : ∀ m ∈ tokNames rest, ∃ w, objGet ps m = some w ∧ valRound w = true := by
        intro m hm
        exact hvals m (by rw [tokNames_cons_tok]; exact List.mem_cons_of_mem _ hm)
      have hmapP : (Seg.tok n :: rest).map Seg.str =
          (':' :: n) :: rest.map Seg.str := rfl
      have hmapV : (Seg.tok n :: rest).map (fun sg => (substSeg ps sg).str) =
          substValue ps n :: rest.map (fun sg => (substSeg ps sg).str) := rfl
      have hdec : decodeURIComponent v = some v :=
        decodeURIComponent_noPercent v (fun c hc => ((hvchars c hc).2.2.1))
      have hnemp : v.isEmpty = false := by
        cases v with
        | nil => exact absurd rfl hvne
        | cons x xs => rfl
      rw [hmapP, hmapV, hsubv,
        extractLoop_step_tok n _ v _ acc hreqn hnemp v hdec,
        ih (objSet acc n v) hsegs' hvals', tokNames_cons_tok]
      simp [hv]

theorem tokNames_mem (segs : List Seg) (n : JStr) (h : n ∈ tokNames segs) :
    Seg.tok n ∈ segs := by
  induction segs with
  | nil => simp [tokNames] at h
  | cons sg rest ih =>
    cases sg with
    | lit s =>
      rw [tokNames_cons_lit] at h
      exact List.mem_cons_of_mem _ (ih h)
    | tok m =>
      rw [tokNames_cons_tok] at h
      rcases List.mem_cons.mp h with h1 | h1
      · subst h1
        exact List.mem_cons_self _ _
      · exact List.mem_cons_of_mem _ (ih h1)

theorem mem_tokNames (segs : List Seg) (n : JStr) (h : Seg.tok n ∈ segs) :
    n ∈ tokNames segs := by
  simp only [tokNames, List.mem_filterMap]
  exact ⟨Seg.tok n, h, rfl⟩

theorem objGet_none_of_domain (ps : Rec) (toks : List JStr) (k : JStr)
    (hdom : ∀ kv ∈ ps, kv.1 ∈ toks) (hk : k ∉ toks) : objGet ps k = none := by
  cases hg : objGet ps k with
  | none => rfl
  | some v =>
    have hmem := objGet_eq_some_mem ps k v hg
    have := hdom (k, v) hmem
    exact absurd this hk

/-! ### Claim C1 -/

/-- C1 counterexample: the claim fails as stated.  On the pattern
`/a/:b` with the record assigning `x/y` to `b`, the built path is
`/a/x/y`, whose extraction recovers only `x` for `b`: the composition
is not the identity because values are substituted without encoding
while extraction splits the concrete path on every `/`. -/
theorem c1_counterexample :
    extractPathParams (js "/a/:b")
        (buildPath (js "/a/:b") (extractParamNames (js "/a/:b"))
          (some [(js "b", js "x/y")])) = some [(js "b", js "x")] ∧
      ([(js "b", js "x")] : Rec) ≠ [(js "b", js "x/y")] := by
  constructor
  · decide
  · decide

/-- C1 (amended): for every pattern whose parameter tokens are all
required, and every record assigning to exactly the token names values
that are non-empty and free of `/`, `:`, `%` and `$`, extracting
parameters from the path produced by build returns exactly that record
(as a key-to-value map). -/
theorem c1_read_build_roundTrip (segs : List Seg) (ps : Rec)
    (hsegs : segs.all (fun sg => segOK sg && segReq sg) = true)
    (hvals : (tokNames segs).all
      (fun n => ((objGet ps n).map valRound).getD false) = true)
    (hdom : ps.all (fun kv => (tokNames segs).contains kv.1) = true) :
    ∃ res,
      extractPathParams (renderPattern segs)
        (buildPath (renderPattern segs)
          (extractParamNames (renderPattern segs)) (some ps)) = some res ∧
      ∀ k, objGet res k = objGet ps k := by
  have hsegs' : ∀ sg ∈ segs, segOK sg = true ∧ segReq sg = true := by
    intro sg hx
    have := (List.all_eq_true.mp hsegs) sg hx
    simpa [Bool.and_eq_true] using this
  have hOK : ∀ sg ∈ segs, segOK sg = true := fun sg hx => (hsegs' sg hx).1
  have hvals' : ∀ n ∈ tokNames segs, ∃ v, objGet ps n = some v ∧ valRound v = true := by
    intro n hn
    have hb := (List.all_eq_true.mp hvals) n hn
    cases hg : objGet ps n with
    | none =>
      rw [hg] at hb
      simp at hb
    | some v =>
      rw [hg] at hb
      exact ⟨v, rfl, by simpa using hb⟩
  have hdom' : ∀ kv ∈ ps, kv.1 ∈ tokNames segs := by
    intro kv hkv
    have hb := (List.all_eq_true.mp hdom) kv hkv
    simpa using hb
  have hreqOf : ∀ n ∈ tokNames segs, endsWithQ n = false := by
    intro n hn
    have := (hsegs' (Seg.tok n) (tokNames_mem segs n hn)).2
    simpa [segReq] using this
  have hvsub : ∀ n ∈ tokNames segs, ∀ c ∈ substValue ps n, c ≠ ':' ∧ c ≠ '$' := by
    intro n hn c hc
    obtain ⟨v, hv, hvr⟩ := hvals' n hn
    have hq := hreqOf n hn
    have hsv : substValue ps n = v := by
      simp [substValue, hq, hv]
    rw [hsv] at hc
    have := (valRound_spec v hvr).2 c hc
    exact ⟨this.2.1, this.2.2.2⟩
  rw [extractParamNames_render segs hOK]
  have hbuild := buildPath_render ps segs [] (by simp) hOK hvsub
  simp only [List.nil_append] at hbuild
  rw [hbuild]
  unfold extractPathParams
  rw [splitOnChar_renderPattern segs hOK]
  have hOKsub : ∀ sg ∈ segs.map (substSeg ps), segOK sg = true := by
    intro sg hsgm
    obtain ⟨sg0, hsg0, hsgeq⟩ := List.mem_map.mp hsgm
    subst hsgeq
    apply substSeg_segOK ps sg0 (hOK sg0 hsg0)
    intro m hm c hc
    subst hm
    have hmm : m ∈ tokNames segs := mem_tokNames segs m hsg0
    obtain ⟨v, hv, hvr⟩ := hvals' m hmm
    have hq := hreqOf m hmm
    have hsv : substValue ps m = v := by
      simp [substValue, hq, hv]
    rw [hsv] at hc
    have := (valRound_spec v hvr).2 c hc
    exact ⟨this.2.1, this.1⟩
  rw [splitOnChar_renderPattern (segs.map (substSeg ps)) hOKsub]
  rw [extractLoop_step_static [] (by rfl), List.tail_cons, List.map_map]
  have hcomp : (Seg.str ∘ substSeg ps) = (fun sg => (substSeg ps sg).str) := rfl
  rw [hcomp]
  rw [extractLoop_subst ps segs [] hsegs' hvals']
  refine ⟨_, rfl, ?_⟩
  intro k
  rw [objGet_foldl_objSet]
  by_cases hk : k ∈ tokNames segs
  · obtain ⟨v, hv, _⟩ := hvals' k hk
    simp [hk, hv]
  · simp only [hk, if_false]
    rw [objGet_none_of_domain ps _ k hdom' hk]
    rfl

/-- C1 witness: the amended round trip at the pattern `/a/:b` with the
record assigning `B` to `b`. -/
theorem c1_read_build_roundTrip_witness :
    ∃ res,
      extractPathParams (renderPattern [Seg.lit (js "a"), Seg.tok (js "b")])
        (buildPath (renderPattern [Seg.lit (js "a"), Seg.tok (js "b")])
          (extractParamNames (renderPattern [Seg.lit (js "a"), Seg.tok (js "b")]))
          (some [(js "b", js "B")])) = some res ∧
      ∀ k, objGet res k = objGet [(js "b", js "B")] k :=
  c1_read_build_roundTrip [Seg.lit (js "a"), Seg.tok (js "b")]
    [(js "b", js "B")] (by decide) (by decide) (by decide)

/-! ### Claim C2 -/

/-- C3 counterexample: the claim says the placeholder is replaced by
the percent-encoded `encode(params[name])`; the code substitutes the
raw value.  With `b` bound to `a b` the built path is `/a/a b`, not
`/a/` followed by `encodeURIComponent("a b") = "a%20b"`. -/
theorem c3_counterexample :
    getFun (js "/a/:b") (extractParamNames (js "/a/:b")) none
        (some [(js "b", js "a b")]) = .ok (js "/a/a b") ∧
      js "a b" ≠ encodeURIComponent (js "a b") := by
  constructor
  · decide
  · decide

/-- C3 (amended): for every well-formed pattern and every record
accepted by build (values free of `:` and `$`), each token placeholder
is replaced by the RAW value `params[cleanName]` when the record has a
value for that name and by the empty string when it does not, and the
validation that ran up front guarantees every required token does have
a value — the empty-string case is only reached for optional tokens.
No percent-encoding is applied. -/
theorem c3_raw_substitution (segs : List Seg) (ps : Rec)
    (hsegs : segs.all segOK = true)
    (hvals : ps.all (fun kv => kv.2.all (fun c => !(c = ':' || c = '$'))) = true)
    (hacc : validateParams (some ps)
      (extractParamNames (renderPattern segs)) (renderPattern segs) = .ok ()) :
    buildPath (renderPattern segs) (extractParamNames (renderPattern segs))
        (some ps) = renderPattern (segs.map (substSeg ps))
    ∧ ∀ n ∈ tokNames segs, endsWithQ n = false →
        ∃ v, objGet ps n = some v ∧ substValue ps n = v := by
  have hOK : ∀ sg ∈ segs, segOK sg = true := by
    intro sg hsg
    exact (List.all_eq_true.mp hsegs) sg hsg
  have hvchars : ∀ k v, (k, v) ∈ ps → ∀ c ∈ v, c ≠ ':' ∧ c ≠ '$' := by
    intro k v hkv c hc
    have := (List.all_eq_true.mp hvals) (k, v) hkv
    simp only [List.all_eq_true] at this
    have := this c hc
    simp at this
    exact this
  have hsubchars : ∀ n ∈ tokNames segs, ∀ c ∈ substValue ps n, c ≠ ':' ∧ c ≠ '$' := by
    intro n hn c hc
    unfold substValue at hc
    by_cases hq : endsWithQ n = true
    · rw [if_pos hq] at hc
      cases hg : objGet ps n.dropLast with
      | none => rw [hg] at hc; simp at hc
      | some v =>
        rw [hg] at hc
        exact hvchars n.dropLast v (objGet_eq_some_mem _ _ _ hg) c (by simpa using hc)
    · rw [if_neg hq] at hc
      cases hg : objGet ps n with
      | none => rw [hg] at hc; simp at hc
      | some v =>
        rw [hg] at hc
        exact hvchars n v (objGet_eq_some_mem _ _ _ hg) c (by simpa using hc)
  constructor
  · rw [extractParamNames_render segs hOK]
    have := buildPath_render ps segs [] (by simp) hOK hsubchars
    simpa using this
  · intro n hn hq
    rw [extractParamNames_render segs hOK] at hacc
    have hnone : (tokNames segs).find?
        (fun name => !endsWithQ name && !objHasKey ps name) = none := by
      cases hfind : (tokNames segs).find?
          (fun name => !endsWithQ name && !objHasKey ps name) with
      | none => rfl
      | some m =>
        simp [validateParams, hfind] at hacc
    have hall := List.find?_eq_none.mp hnone n hn
    simp only [hq, Bool.not_false, Bool.true_and, Bool.not_eq_true'] at hall
    have hne : ¬ objGet ps n = none := by
      simpa [objHasKey] using hall
    obtain ⟨v, hv⟩ := Option.ne_none_iff_exists'.mp hne
    exact ⟨v, hv, by simp [substValue, hq, hv]⟩

/-- C3 witness: the spec's optional-omission scenario
building `a/:b/c/:d?` with only `b` bound to `B` gives `/a/B/c/` - through the amended
substitution theorem. -/
theorem c3_raw_substitution_witness :
    (buildPath (renderPattern [Seg.lit (js "a"), Seg.tok (js "b"),
        Seg.lit (js "c"), Seg.tok (js "d?")])
      (extractParamNames (renderPattern [Seg.lit (js "a"), Seg.tok (js "b"),
        Seg.lit (js "c"), Seg.tok (js "d?")]))
      (some [(js "b", js "B")]) =
      renderPattern ([Seg.lit (js "a"), Seg.tok (js "b"), Seg.lit (js "c"),
        Seg.tok (js "d?")].map (substSeg [(js "b", js "B")])))
    ∧ ∀ n ∈ tokNames [Seg.lit (js "a"), Seg.tok (js "b"), Seg.lit (js "c"),
        Seg.tok (js "d?")], endsWithQ n = false →
        ∃ v, objGet [(js "b", js "B")] n = some v ∧
          substValue [(js "b", js "B")] n = v :=
  c3_raw_substitution
    [Seg.lit (js "a"), Seg.tok (js "b"), Seg.lit (js "c"), Seg.tok (js "d?")]
    [(js "b", js "B")] (by decide) (by decide) (by decide)

/-! ### Claim C4 -/

theorem foldl_pairs_filterMap (data : RecU) :
    ∀ acc : List (JStr × JStr),
      data.foldl (fun acc kv =>
        match kv.2 with
        | some v => acc ++ [(kv.1, v)]
        | none => acc) acc =
      acc ++ data.filterMap (fun kv => kv.2.map (fun v => (kv.1, v))) := by
  induction data with
  | nil => simp
  | cons kv rest ih =>
    intro acc
    cases hv : kv.2 with
    | none => simp [List.foldl_cons, hv, ih]
    | some v => simp [List.foldl_cons, hv, ih]

/-- C4 (confirmed): when the search capability validates successfully,
the validated record is serialised in its own enumeration order,
skipping `undefined`-valued keys, each remaining key and value encoded
by the form-urlencoded percent-encoder, joined as `key=value` pairs
with `&`; a non-empty result is appended after exactly one `?`, an
empty one leaves the bare substituted path. -/
theorem c4_query_serialisation (pattern : JStr) (names : List JStr)
    (contract : SearchCap) (params : Option Rec) (data : RecU)
    (hvalid : validateParams params names pattern = .ok ())
    (hcap : contract (params.getD []) = .ok data) :
    getFun pattern names (some contract) params =
      .ok (if (joinWith '&'
          ((data.filterMap (fun kv => kv.2.map (fun v => (kv.1, v)))).map
            (fun kv => formEncode kv.1 ++ '=' :: formEncode kv.2))).isEmpty
        then buildPath pattern names params
        else buildPath pattern names params ++ '?' :: joinWith '&'
          ((data.filterMap (fun kv => kv.2.map (fun v => (kv.1, v)))).map
            (fun kv => formEncode kv.1 ++ '=' :: formEncode kv.2))) := by
  simp only [getFun, hvalid, hcap]
  have hfold := foldl_pairs_filterMap data ([] : List (JStr × JStr))
  simp only [List.nil_append] at hfold
  rw [hfold]
  simp [uspToString]

/-- C4 witness: a capability returning `z = Z` and an undefined `q`
serialises to `?z=Z` after the substituted path. -/
theorem c4_query_serialisation_witness :
    getFun (js "/a/:b") [js "b"]
        (some (fun _ => .ok [(js "z", some (js "Z")), (js "q", none)]))
        (some [(js "b", js "B")]) = .ok (js "/a/B?z=Z") := by
  have h := c4_query_serialisation (js "/a/:b") [js "b"]
    (fun _ => .ok [(js "z", some (js "Z")), (js "q", none)])
    (some [(js "b", js "B")]) [(js "z", some (js "Z")), (js "q", none)]
    (by decide) rfl
  rw [h]
  decide

/-! ### Claims C5 and C6 -/

theorem mem_rmapSet (k : JStr) (v : Entry) :
    ∀ (r : RMap) (kv : JStr × Entry), kv ∈ rmapSet r k v → kv = (k, v) ∨ kv ∈ r := by
  intro r
  induction r with
  | nil =>
    intro kv hkv
    simp [rmapSet] at hkv
    left
    exact hkv
  | cons kv0 rest ih =>
    intro kv hkv
    by_cases h0 : kv0.1 = k
    · simp only [rmapSet, h0, beq_self_eq_true, if_true] at hkv
      rcases List.mem_cons.mp hkv with h1 | h1
      · left
        exact h1
      · right
        exact List.mem_cons_of_mem _ h1
    · simp only [rmapSet, beq_iff_eq, h0, if_false] at hkv
      rcases List.mem_cons.mp hkv with h1 | h1
      · right
        rw [h1]
        exact List.mem_cons_self _ _
      · rcases ih kv h1 with h2 | h2
        · left
          exact h2
        · right
          exact List.mem_cons_of_mem _ h2

/-- Every entry of the flattened map either was in the incoming map or
was registered by the guard: its key starts with `/` and its `Entry`
carries that very key as `pattern` together with the key's token
names. -/
theorem inferList_preserves (P : JStr × Entry → Prop)
    (hreg : ∀ path sp, leadsWith (js "/") path = true →
      P (path, ⟨path, extractParamNames path, sp⟩)) :
    ∀ (fuel : Nat) (l : List RouteDecl) (parent : JStr) (r : RMap),
      sizeOf l ≤ fuel → (∀ kv ∈ r, P kv) →
      ∀ kv ∈ inferList l parent r, P kv := by
  intro fuel
  induction fuel with
  | zero =>
    intro l parent r hsz hr kv hkv
    exfalso
    cases l with
    | nil => simp at hsz
    | cons a b =>
      simp only [List.cons.sizeOf_spec] at hsz
      omega
  | succ f ih =>
    intro l parent r hsz hr kv hkv
    cases l with
    | nil =>
      have hnil : inferList [] parent r = r := by simp [inferList]
      rw [hnil] at hkv
      exact hr kv hkv
    | cons hd cs =>
      obtain ⟨p, sp, children⟩ := hd
      have hszc : sizeOf children ≤ f ∧ sizeOf cs ≤ f := by
        simp only [List.cons.sizeOf_spec, RouteDecl.node.sizeOf_spec] at hsz
        omega
      cases p with
      | some seg =>
        simp only [inferList] at hkv
        set path0 := parent ++ '/' :: seg with hpath0
        set path := if leadsWith (js "//") path0 then path0.drop 1 else path0 with hpath
        set routes' := if leadsWith (js "/") path then
          rmapSet r path ⟨path, extractParamNames path, sp⟩ else r with hroutes
        have h1 : ∀ kv ∈ routes', P kv := by
          intro kv2 hkv2
          rw [hroutes] at hkv2
          by_cases hlead : leadsWith (js "/") path = true
          · rw [if_pos hlead] at hkv2
            rcases mem_rmapSet path ⟨path, extractParamNames path, sp⟩ r kv2 hkv2 with h2 | h2
            · rw [h2]
              exact hreg path sp hlead
            · exact hr kv2 h2
          · rw [if_neg hlead] at hkv2
            exact hr kv2 hkv2
        have h2 : ∀ kv ∈ inferList children path routes', P kv :=
          fun kv2 hkv2 => ih children path routes' hszc.1 h1 kv2 hkv2
        exact ih cs parent (inferList children path routes') hszc.2 h2 kv hkv
      | none =>
        simp only [inferList] at hkv
        have h2 : ∀ kv ∈ inferList children parent r, P kv :=
          fun kv2 hkv2 => ih children parent r hszc.1 hr kv2 hkv2
        exact ih cs parent (inferList children parent r) hszc.2 h2 kv hkv

/-- C5 counterexample: a path segment that itself begins with slashes
defeats the one-shot normalization.  Flattening the single node with
segment `//x` under the empty basename computes the candidate `///x`,
strips ONE leading slash, and registers the pattern `//x`, which
begins with two slashes — the claim promised exactly one. -/
theorem c5_counterexample :
    (inferRouteObjectM (.node (some (js "//x")) none []) (js "")).map Prod.fst =
      [js "//x"] ∧ leadsWith (js "//") (js "//x") = true := by
  constructor
  · simp [inferRouteObjectM, inferList, rmapSet, js, leadsWith]
  · decide

/-- C5 (amended): the normalization strips a single leading slash when
the concatenation `prefix + "/" + segment` begins with `//`, and the
registration guard admits only candidates that start with `/`;
consequently every pattern registered in the RouteMap begins with at
least one `/` — but it may begin with several, because only one
duplicate slash is ever removed. -/
theorem c5_registered_lead_slash (root : RouteDecl) (basename : JStr) :
    (inferRouteObjectM root basename).all
      (fun kv => leadsWith (js "/") kv.1) = true := by
  rw [List.all_eq_true]
  intro kv hkv
  exact inferList_preserves (fun kv => leadsWith (js "/") kv.1 = true)
    (fun path sp hlead => hlead) (sizeOf [root]) [root] basename []
    le_rfl (by simp) kv hkv

/-- C6 (confirmed): every key of the flattened RouteMap equals the
`pattern` field of the entry stored under it, for every declaration
tree and basename. -/
theorem c6_key_eq_pattern (root : RouteDecl) (basename : JStr) :
    (inferRouteObjectM root basename).all
      (fun kv => kv.1 == kv.2.pattern) = true := by
  rw [List.all_eq_true]
  intro kv hkv
  exact inferList_preserves (fun kv => (kv.1 == kv.2.pattern) = true)
    (fun path sp _ => by simp) (sizeOf [root]) [root] basename []
    le_rfl (by simp) kv hkv

/-! ### Read-path record lemmas -/

theorem objGetU_recToU (r : Rec) (k : JStr) :
    objGetU (recToU r) k = (objGet r k).map some := by
  induction r with
  | nil => simp [recToU, objGetU, objGet]
  | cons kv rest ih =>
    by_cases h : kv.1 = k
    · simp [recToU, objGetU, objGet, h]
    · simp only [recToU, List.map_cons, objGetU, objGet, beq_iff_eq, h,
        if_false]
      exact ih

theorem objGet_none_of_not_keys (r : Rec) (k : JStr)
    (h : k ∉ r.map Prod.fst) : objGet r k = none := by
  cases hg : objGet r k with
  | none => rfl
  | some v =>
    exfalso
    apply h
    exact List.mem_map.mpr ⟨(k, v), objGet_eq_some_mem r k v hg, rfl⟩

theorem keys_objSet (r : Rec) (k v : JStr) :
    ∀ x ∈ (objSet r k v).map Prod.fst, x = k ∨ x ∈ r.map Prod.fst := by
  induction r with
  | nil =>
    intro x hx
    simp [objSet] at hx
    left
    exact hx
  | cons kv0 rest ih =>
    intro x hx
    by_cases h0 : kv0.1 = k
    · rw [show objSet (kv0 :: rest) k v = (k, v) :: rest from by
        simp [objSet, h0], List.map_cons] at hx
      rcases List.mem_cons.mp hx with h1 | h1
      · left
        exact h1
      · right
        rw [List.map_cons]
        exact List.mem_cons_of_mem _ h1
    · rw [show objSet (kv0 :: rest) k v = kv0 :: objSet rest k v from by
        simp [objSet, h0], List.map_cons] at hx
      rcases List.mem_cons.mp hx with h1 | h1
      · right
        rw [List.map_cons, h1]
        exact List.mem_cons_self _ _
      · rcases ih x h1 with h2 | h2
        · left
          exact h2
        · right
          rw [List.map_cons]
          exact List.mem_cons_of_mem _ h2

theorem nodupKeys_objSet (r : Rec) (k v : JStr)
    (h : (r.map Prod.fst).Nodup) : ((objSet r k v).map Prod.fst).Nodup := by
  induction r with
  | nil => simp [objSet]
  | cons kv0 rest ih =>
    simp only [List.map_cons, List.nodup_cons] at h
    by_cases h0 : kv0.1 = k
    · simp only [objSet, h0, beq_self_eq_true, if_true, List.map_cons,
        List.nodup_cons]
      exact ⟨by rw [← h0]; exact h.1, h.2⟩
    · simp only [objSet, beq_iff_eq, h0, if_false, List.map_cons,
        List.nodup_cons]
      refine ⟨?_, ih h.2⟩
      intro hmem
      rcases keys_objSet rest k v kv0.1 hmem with h1 | h1
      · exact h0 h1
      · exact h.1 h1

theorem extractLoop_nodupKeys :
    ∀ (pps paths : List JStr) (acc res : Rec),
      (acc.map Prod.fst).Nodup → extractLoop pps paths acc = some res →
      (res.map Prod.fst).Nodup := by
  intro pps
  induction pps with
  | nil =>
    intro paths acc res hacc hres
    simp [extractLoop] at hres
    rw [← hres]
    exact hacc
  | cons pp rest ih =>
    intro paths acc res hacc hres
    simp only [extractLoop] at hres
    by_cases htok : leadsWith (js ":") pp = true
    · rw [if_pos htok] at hres
      by_cases hne : (paths.headD []).isEmpty = false
      · rw [hne] at hres
        simp only [Bool.not_false, if_true] at hres
        cases hdec : decodeURIComponent (paths.headD []) with
        | none => rw [hdec] at hres; simp at hres
        | some d =>
          rw [hdec] at hres
          exact ih paths.tail _ res (nodupKeys_objSet _ _ _ hacc) hres
      · have hne' : (paths.headD []).isEmpty = true := by
          cases hh : (paths.headD []).isEmpty
          · exact absurd hh hne
          · rfl
        rw [hne'] at hres
        simp only [Bool.not_true, Bool.false_eq_true, if_false] at hres
        by_cases hopt : endsWithQ (pp.drop 1) = true
        · rw [hopt] at hres
          simp only [Bool.not_true, Bool.false_eq_true, if_false] at hres
          exact ih paths.tail _ res hacc hres
        · rw [Bool.not_eq_true] at hopt
          rw [hopt] at hres
          simp only [Bool.not_false, if_true] at hres
          exact ih paths.tail _ res (nodupKeys_objSet _ _ _ hacc) hres
    · rw [Bool.not_eq_true] at htok
      rw [htok] at hres
      simp only [Bool.false_eq_true, if_false] at hres
      exact ih paths.tail _ res hacc hres

theorem extractPathParams_nodupKeys (pattern pathname : JStr) (pp : Rec)
    (h : extractPathParams pattern pathname = some pp) :
    (pp.map Prod.fst).Nodup := by
  exact extractLoop_nodupKeys _ _ [] pp (by simp) h

/-- Lookup through the merge fold of the hook: a non-empty extracted
value wins, anything else falls back to the base record. -/
theorem objGet_mergeFold (pp : Rec) :
    ∀ (base : Rec) (k : JStr), (pp.map Prod.fst).Nodup →
      objGet (pp.foldl
        (fun acc kv => if kv.2.isEmpty then acc else objSet acc kv.1 kv.2)
        base) k =
      (match objGet pp k with
        | some v => if v.isEmpty then objGet base k else some v
        | none => objGet base k) := by
  induction pp with
  | nil => simp [objGet]
  | cons kv0 rest ih =>
    intro base k hnd
    simp only [List.map_cons, List.nodup_cons] at hnd
    rw [List.foldl_cons, ih _ k hnd.2]
    by_cases hk : kv0.1 = k
    · have hrest : objGet rest k = none := by
        apply objGet_none_of_not_keys
        rw [← hk]
        exact hnd.1
      rw [hrest]
      simp only [objGet, hk, beq_self_eq_true, if_true]
      by_cases hv : kv0.2.isEmpty = true
      · simp [hv, hk]
      · rw [Bool.not_eq_true] at hv
        simp only [hv, Bool.false_eq_true, if_false]
        exact objGet_objSet_self base k kv0.2
    · have hobj : objGet (kv0 :: rest) k = objGet rest k := by
        simp [objGet, hk]
      rw [hobj]
      have hbase : objGet (if kv0.2.isEmpty = true then base
          else objSet base kv0.1 kv0.2) k = objGet base k := by
        by_cases hv : kv0.2.isEmpty = true
        · simp [hv]
        · rw [Bool.not_eq_true] at hv
          simp only [hv, Bool.false_eq_true, if_false]
          exact objGet_objSet_ne base kv0.1 kv0.2 k (fun he => hk he.symm)
      rw [hbase]

/-- Shared step fact: when every missing required token has a truthy
fallback entry, the hook proceeds from the missing-parameter gate into
the merge-and-search phase. -/
theorem useParamsHook_past_check (pattern : JStr) (names : List JStr)
    (cap : Option SearchCap) (loc : Location) (fb : Rec) (pp : Rec)
    (hpp : extractPathParams pattern loc.pathname = some pp)
    (hfil : (missingOf names pp).filter
      (fun n => ((objGet fb n).getD []).isEmpty) = []) :
    useParamsHook pattern names cap loc (some fb) =
      readSearchPhase cap loc (some fb) (mergedOf (some fb) pp) := by
  have hunfold : useParamsHook pattern names cap loc (some fb) =
      (match missingCheck pattern (missingOf names pp) (some fb) with
        | Except.error e => (Except.error e : Except JsError RecU)
        | Except.ok _ => readSearchPhase cap loc (some fb)
            (mergedOf (some fb) pp)) := by
    unfold useParamsHook
    rw [hpp]
  rw [hunfold]
  cases hmiss : missingOf names pp with
  | nil =>
    have hmc : missingCheck pattern ([] : List JStr) (some fb) = .ok () := by
      simp [missingCheck]
    rw [hmc]
  | cons m0 ms =>
    rw [hmiss] at hfil
    have hmc : missingCheck pattern (m0 :: ms) (some fb) = .ok () := by
      simp only [missingCheck, hfil]
    rw [hmc]

/-! ### Claim C7 -/

/-- A search-params contract used only to exhibit C7: it demands a
`userId` key (echoing it back) and rejects any input without one. -/
def capUserId : SearchCap := fun r =>
  match objGet r (js "userId") with
  | some v => .ok [(js "userId", some v)]
  | none => .error (.contractErr 9)

/-- C7 counterexample: the claim fails for reads whose search phase
contributes values.  With `capUserId` attached, pathname
`/users/actual`, the non-empty query `?foo=1` (which the contract
rejects) and fallback binding `userId` to `fallback`, the live
validation fails, the FALLBACK record validates, and its record is
spread over the merged parameters: the read SUCCEEDS yet yields
`userId = "fallback"`, although `actual` was extracted from the
pathname — the fallback value wins over the extracted one. -/
theorem c7_counterexample :
    useParamsHook (js "/users/:userId") [js "userId"] (some capUserId)
        ⟨js "/users/actual", js "?foo=1"⟩
        (some [(js "userId", js "fallback")]) =
      .ok [(js "userId", some (js "fallback"))] ∧
      js "fallback" ≠ js "actual" := by
  constructor
  · decide
  · decide

/-- C7 (amended): for every successful read whose search phase
contributes nothing — no search capability attached, or an empty query
string — the result is built by starting from the fallback record
(when given) and overlaying every non-empty value extracted from the
pathname, so for every name present in both, the extracted value wins
(in particular the spec's userId actual-over-fallback scenario).  When
a capability is attached and a non-empty query fails validation while
the fallback record validates, the validated fallback record is
overlaid ON TOP of the merged record, overriding same-named extracted
values. -/
theorem c7_fallback_precedence (pattern : JStr) (names : List JStr) :
    (∀ (cap : Option SearchCap) (loc : Location) (fb : Option Rec)
        (pp : Rec) (M : RecU),
      cap = none ∨ loc.search.isEmpty = true →
      extractPathParams pattern loc.pathname = some pp →
      useParamsHook pattern names cap loc fb = .ok M →
      M = recToU (mergedOf fb pp) ∧
      ∀ k, objGetU M k =
        (match objGet pp k with
          | some v => if v.isEmpty then (objGet (fb.getD []) k).map some
              else some (some v)
          | none => (objGet (fb.getD []) k).map some))
    ∧ (∀ (contract : SearchCap) (loc : Location) (fb pp : Rec)
        (vfb : RecU) (e1 : JsError),
      extractPathParams pattern loc.pathname = some pp →
      (missingOf names pp).filter
        (fun n => ((objGet fb n).getD []).isEmpty) = [] →
      loc.search.isEmpty = false →
      contract (searchObjOf loc.search) = .error e1 →
      contract fb = .ok vfb →
      useParamsHook pattern names (some contract) loc (some fb) =
        .ok (overlayU (recToU (mergedOf (some fb) pp)) vfb)) := by
  constructor
  · intro cap loc fb pp M hcap hpp hok
    have hM : M = recToU (mergedOf fb pp) := by
      unfold useParamsHook at hok
      rw [hpp] at hok
      have hok2 : (match missingCheck pattern (missingOf names pp) fb with
          | Except.error e => (Except.error e : Except JsError RecU)
          | Except.ok _ => readSearchPhase cap loc fb (mergedOf fb pp)) =
          .ok M := hok
      have hsp : readSearchPhase cap loc fb (mergedOf fb pp) =
          .ok (recToU (mergedOf fb pp)) := by
        rcases hcap with hc | hc
        · rw [hc]
          rfl
        · cases cap with
          | none => rfl
          | some contract => simp [readSearchPhase, hc]
      cases hmc : missingCheck pattern (missingOf names pp) fb with
      | error e =>
        rw [hmc] at hok2
        simp at hok2
      | ok u =>
        rw [hmc, hsp] at hok2
        exact (Except.ok.inj hok2).symm
    refine ⟨hM, ?_⟩
    intro k
    rw [hM, objGetU_recToU]
    unfold mergedOf
    rw [objGet_mergeFold pp (fb.getD []) k (extractPathParams_nodupKeys _ _ pp hpp)]
    cases objGet pp k with
    | none => rfl
    | some v =>
      by_cases hv : v.isEmpty = true
      · simp [hv]
      · rw [Bool.not_eq_true] at hv
        simp [hv]
  · intro contract loc fb pp vfb e1 hpp hfil hne hlive hfb
    rw [useParamsHook_past_check pattern names (some contract) loc fb pp hpp hfil]
    simp only [readSearchPhase, hne, Bool.false_eq_true, if_false, hlive, hfb]

/-- C7 witness: the spec's fallback-precedence scenario — pathname
value `actual` beats fallback value `fallback` for `userId` when no
capability is attached. -/
theorem c7_fallback_precedence_witness :
    ([(js "userId", some (js "actual"))] : RecU) =
      recToU (mergedOf (some [(js "userId", js "fallback")])
        [(js "userId", js "actual")]) ∧
    ∀ k, objGetU [(js "userId", some (js "actual"))] k =
      (match objGet [(js "userId", js "actual")] k with
        | some v => if v.isEmpty then
            (objGet ((some [(js "userId", js "fallback")]).getD []) k).map some
            else some (some v)
        | none =>
          (objGet ((some [(js "userId", js "fallback")]).getD []) k).map some) :=
  (c7_fallback_precedence (js "/users/:userId") [js "userId"]).1 none
    ⟨js "/users/actual", js ""⟩ (some [(js "userId", js "fallback")])
    [(js "userId", js "actual")] [(js "userId", some (js "actual"))]
    (Or.inl rfl) (by decide) (by decide)

/-! ### Claim C8 -/

/-- C8 counterexample: the claim says a missing required token WITH a
fallback entry does not make the read fail, but the hook tests the
fallback value for truthiness: an empty-string fallback entry for `b`
still throws `MissingParameterError` naming `b`. -/
theorem c8_counterexample :
    useParamsHook (js "/a/:b") [js "b"] none
        ⟨js "/a/", js ""⟩
        (some [(js "b", js "")]) =
      .error (.missingParam (js "b") (js "/a/:b")) := by
  decide

/-- C8 (amended): among the required tokens whose extracted value is
absent or empty (in declared order), those whose fallback entry is
absent or empty remain missing; if any remain, the read fails with a
`MissingParameterError` naming the first of them together with the
pattern; if every missing required token has a NON-EMPTY fallback
entry, the read proceeds past this check. -/
theorem c8_read_missing (pattern : JStr) (names : List JStr)
    (cap : Option SearchCap) (loc : Location) (fb : Rec) (pp : Rec)
    (hpp : extractPathParams pattern loc.pathname = some pp) :
    (∀ m rest, (missingOf names pp).filter
        (fun n => ((objGet fb n).getD []).isEmpty) = m :: rest →
      useParamsHook pattern names cap loc (some fb) =
        .error (.missingParam m pattern))
    ∧ ((missingOf names pp).filter
        (fun n => ((objGet fb n).getD []).isEmpty) = [] →
      useParamsHook pattern names cap loc (some fb) =
        readSearchPhase cap loc (some fb) (mergedOf (some fb) pp)) := by
  have hunfold : useParamsHook pattern names cap loc (some fb) =
      (match missingCheck pattern (missingOf names pp) (some fb) with
        | Except.error e => (Except.error e : Except JsError RecU)
        | Except.ok _ => readSearchPhase cap loc (some fb)
            (mergedOf (some fb) pp)) := by
    unfold useParamsHook
    rw [hpp]
  constructor
  · intro m rest hfil
    rw [hunfold]
    cases hmiss : missingOf names pp with
    | nil =>
      rw [hmiss] at hfil
      simp at hfil
    | cons m0 ms =>
      rw [hmiss] at hfil
      have hmc : missingCheck pattern (m0 :: ms) (some fb) =
          .error (.missingParam m pattern) := by
        simp only [missingCheck, hfil]
      rw [hmc]
  · intro hfil
    exact useParamsHook_past_check pattern names cap loc fb pp hpp hfil

/-- C8 witness: on `/a/:b` with pathname `/a/` the required `b` is
missing, and a non-empty fallback entry for `b` lets the read proceed
past the check. -/
theorem c8_read_missing_witness :
    useParamsHook (js "/a/:b") [js "b"] none
        ⟨js "/a/", js ""⟩
        (some [(js "b", js "B")]) =
      readSearchPhase none ⟨js "/a/", js ""⟩
        (some [(js "b", js "B")])
        (mergedOf (some [(js "b", js "B")]) [(js "b", js "")]) :=
  (c8_read_missing (js "/a/:b") [js "b"] none
    ⟨js "/a/", js ""⟩ [(js "b", js "B")]
    [(js "b", js "")] (by decide)).2 (by decide)

/-! ### Claim C9 -/

/-- A contract used only to exhibit C9's error flow: it always fails,
with an error code remembering how many keys its input had, so the
live failure and the fallback failure are distinguishable. -/
def capLen : SearchCap := fun r => .error (.contractErr r.length)

/-- C9 counterexample: the claim says the composed error carries the
outcomes of BOTH validation attempts.  Under `capLen` the live attempt
fails with code 1 (one live query pair) while the fallback attempts
fail with code 2 and code 3 respectively (two- and three-key
fallbacks); yet both reads throw the IDENTICAL composed error, which
interpolates only the live failure — the error cannot carry the
fallback outcome. -/
theorem c9_counterexample :
    useParamsHook (js "/a") [] (some capLen)
        ⟨js "/a", js "?x=1"⟩
        (some [(js "p", js "1"), (js "q", js "2")]) =
      .error (.invalidSearchFallback (.contractErr 1)) ∧
    useParamsHook (js "/a") [] (some capLen)
        ⟨js "/a", js "?x=1"⟩
        (some [(js "p", js "1"), (js "q", js "2"), (js "r", js "3")]) =
      .error (.invalidSearchFallback (.contractErr 1)) ∧
    capLen [(js "p", js "1"), (js "q", js "2")] ≠
      capLen [(js "p", js "1"), (js "q", js "2"), (js "r", js "3")] := by
  refine ⟨by decide, by decide, by decide⟩

/-- C9 (amended): when the live query record is rejected with error
`e1` and a fallback is present, the fallback record is validated; if
that validation fails too — with ANY error `e2` — the read fails with
the composed error carrying only `e1`; with no fallback the live error
`e1` propagates unchanged. -/
theorem c9_composed_error (pattern : JStr) (names : List JStr)
    (contract : SearchCap) (loc : Location) (pp : Rec) (e1 : JsError)
    (hpp : extractPathParams pattern loc.pathname = some pp)
    (hsearch : loc.search.isEmpty = false)
    (hlive : contract (searchObjOf loc.search) = .error e1) :
    (∀ (fb : Rec) (e2 : JsError),
      (missingOf names pp).filter
        (fun n => ((objGet fb n).getD []).isEmpty) = [] →
      contract fb = .error e2 →
      useParamsHook pattern names (some contract) loc (some fb) =
        .error (.invalidSearchFallback e1))
    ∧ (missingOf names pp = [] →
      useParamsHook pattern names (some contract) loc none = .error e1) := by
  constructor
  · intro fb e2 hfil hfb
    rw [useParamsHook_past_check pattern names (some contract) loc fb pp hpp hfil]
    simp only [readSearchPhase, hsearch, Bool.false_eq_true, if_false,
      hlive, hfb]
  · intro hmiss
    have hunfold : useParamsHook pattern names (some contract) loc none =
        (match missingCheck pattern (missingOf names pp) none with
          | Except.error e => (Except.error e : Except JsError RecU)
          | Except.ok _ => readSearchPhase (some contract) loc none
              (mergedOf none pp)) := by
      unfold useParamsHook
      rw [hpp]
    rw [hunfold, hmiss]
    simp only [missingCheck, readSearchPhase, hsearch, Bool.false_eq_true,
      if_false, hlive]

/-- C9 witness: the composed-error branch and the no-fallback branch
at the `capLen` scenario. -/
theorem c9_composed_error_witness :
    useParamsHook (js "/a") [] (some capLen)
        ⟨js "/a", js "?x=1"⟩
        (some [(js "p", js "1"), (js "q", js "2")]) =
      .error (.invalidSearchFallback (.contractErr 1)) ∧
    useParamsHook (js "/a") [] (some capLen)
        ⟨js "/a", js "?x=1"⟩ none =
      .error (.contractErr 1) := by
  have h := c9_composed_error (js "/a") [] capLen
    ⟨js "/a", js "?x=1"⟩ [] (.contractErr 1)
    (by decide) (by decide) (by decide)
  exact ⟨h.1 [(js "p", js "1"), (js "q", js "2")] (.contractErr 2)
    (by decide) (by decide), h.2 (by decide)⟩

/-! ### Claim C10 -/

/-- A contract used only to exhibit C10: it rejects every input. -/
def capFail : SearchCap := fun _ => .error (.contractErr 0)

/-- C10 counterexample: the claim says the query string — INCLUDING an
empty one — is parsed and validated; but with an empty `search` the
hook never invokes the capability: a read against an
always-rejecting contract succeeds. -/
theorem c10_counterexample :
    useParamsHook (js "/a") [] (some capFail)
        ⟨js "/a", js ""⟩ none = .ok [] := by
  decide

/-- C10 (amended): the search capability is invoked exactly when the
query string is non-empty.  With an empty query the capability is
skipped entirely (the read behaves as if no capability existed); with
a non-empty query the string is parsed into a flat key-to-string
record and validated, a success overlaying the validated record onto
the merged parameters; and without a capability the result never
depends on the query string. -/
theorem c10_capability_invocation (pattern : JStr) (names : List JStr)
    (fb : Option Rec) :
    (∀ (contract : SearchCap) (pathname : JStr),
      useParamsHook pattern names (some contract)
          ⟨pathname, []⟩ fb =
        useParamsHook pattern names none
          ⟨pathname, []⟩ fb)
    ∧ (∀ (pathname s1 s2 : JStr),
      useParamsHook pattern names none ⟨pathname, s1⟩ fb =
        useParamsHook pattern names none ⟨pathname, s2⟩ fb)
    ∧ (∀ (contract : SearchCap) (loc : Location) (pp : Rec) (data : RecU),
      extractPathParams pattern loc.pathname = some pp →
      missingCheck pattern (missingOf names pp) fb = .ok () →
      loc.search.isEmpty = false →
      contract (searchObjOf loc.search) = .ok data →
      useParamsHook pattern names (some contract) loc fb =
        .ok (overlayU (recToU (mergedOf fb pp)) data)) := by
  refine ⟨?_, ?_, ?_⟩
  · intro contract pathname
    unfold useParamsHook
    cases extractPathParams pattern pathname with
    | none => rfl
    | some pp =>
      cases missingCheck pattern (missingOf names pp) fb with
      | error e => rfl
      | ok u => simp [readSearchPhase]
  · intro pathname s1 s2
    unfold useParamsHook
    cases extractPathParams pattern pathname with
    | none => rfl
    | some pp =>
      cases missingCheck pattern (missingOf names pp) fb with
      | error e => rfl
      | ok u => simp [readSearchPhase]
  · intro contract loc pp data hpp hmc hne hcap
    have hunfold : useParamsHook pattern names (some contract) loc fb =
        (match missingCheck pattern (missingOf names pp) fb with
          | Except.error e => (Except.error e : Except JsError RecU)
          | Except.ok _ => readSearchPhase (some contract) loc fb
              (mergedOf fb pp)) := by
      unfold useParamsHook
      rw [hpp]
    rw [hunfold, hmc]
    simp only [readSearchPhase, hne, Bool.false_eq_true, if_false, hcap]

/-- C10 witness: an echoing contract sees exactly the parsed query
record and its validated output is overlaid onto the merged
parameters. -/
theorem c10_capability_invocation_witness :
    useParamsHook (js "/categories/:categoryId") [js "categoryId"]
        (some (fun r => .ok (recToU r)))
        ⟨js "/categories/electronics", js "?z=Z"⟩
        none =
      .ok (overlayU (recToU (mergedOf none
          [(js "categoryId", js "electronics")]))
        [(js "z", some (js "Z"))]) :=
  (c10_capability_invocation (js "/categories/:categoryId")
    [js "categoryId"] none).2.2 (fun r => .ok (recToU r))
    ⟨js "/categories/electronics", js "?z=Z"⟩
    [(js "categoryId", js "electronics")] [(js "z", some (js "Z"))]
    (by decide) (by decide) (by decide) (by decide)

end RRTO
